import Mathlib

/-!
Verification of the send2ereader core (src/index.js): key generation,
session registry with two-tier expiry timers, upload validation,
conversion dispatch, and the download gate.  All definitions are shallow
embeddings of the JavaScript source; timers are modelled as an explicit
pending-timer table and the Node event loop as a small-step relation in
which time may not advance past the due instant of a pending timer.
-/

namespace Send2Ereader

/-! ## Constants (src/index.js lines 20-41) -/

/-- Value of `expireDelay * 1000` milliseconds: the renewable idle window. -/
def expireDelayMs : Nat := 10 * 60 * 1000

/-- Value of `maxExpireDuration * 1000` milliseconds: the hard-cap session lifetime. -/
def maxExpireMs : Nat := 60 * 60 * 1000

def TYPE_EPUB : String := "application/epub+zip"

def TYPE_MOBI : String := "application/x-mobipocket-ebook"

/-- The `allowedTypes` list (lines 27-37). -/
def allowedTypes : List String :=
  [TYPE_EPUB, TYPE_MOBI, "application/pdf", "application/vnd.comicbook+zip",
   "application/vnd.comicbook-rar", "text/html", "text/plain",
   "application/zip", "application/x-rar-compressed"]

/-- The `allowedExtensions` list (line 38). -/
def allowedExtensions : List String :=
  ["epub", "mobi", "pdf", "cbz", "cbr", "html", "txt"]

/-- The `keyChars` alphabet (line 40): the 30-symbol key alphabet. -/
def keyChars : String := "23456789ACDEFGHJKLMNPRSTUVWXYZ"

def keyLength : Nat := 4

/-! ## JavaScript string helpers -/

/-- Model of JS `String.prototype.trim`. -/
def jsTrim (s : String) : String :=
  ⟨((s.data.dropWhile Char.isWhitespace).reverse.dropWhile Char.isWhitespace).reverse⟩

/-- Model of JS `String.prototype.toUpperCase` (ASCII range). -/
def jsToUpper (s : String) : String := ⟨s.data.map Char.toUpper⟩

/-- Model of JS `String.prototype.toLowerCase` (ASCII range). -/
def jsToLower (s : String) : String := ⟨s.data.map Char.toLower⟩

/-- Does list `l` start with `p`? -/
def listStartsWith : List Char → List Char → Bool
  | _, [] => true
  | [], _ :: _ => false
  | a :: as, b :: bs => a = b && listStartsWith as bs

/-- Does `l` contain `n` as a contiguous run? -/
def listContainsSub : List Char → List Char → Bool
  | [], n => listStartsWith [] n
  | l@(_ :: as), n => listStartsWith l n || listContainsSub as n

/-- Model of JS `String.prototype.includes`. -/
def jsIncludes (hay needle : String) : Bool := listContainsSub hay.data needle.data

/-- Index (from the front) of the last `.` in the list, if any. -/
def lastDotIdx (cs : List Char) : Option Nat :=
  match cs with
  | [] => none
  | c :: rest =>
    match lastDotIdx rest with
    | some i => some (i + 1)
    | none => if c = '.' then some 0 else none

/-- Model of Node `path.extname` on a flat (slash-free) name: the suffix
starting at the last dot, empty when there is no dot or the only dot is the
leading character. -/
def extname (s : String) : String :=
  match lastDotIdx s.data with
  | none => ""
  | some 0 => ""
  | some i => ⟨s.data.drop i⟩

/-- Computation `extname(name).toLowerCase().substring(1)` (line 156). -/
def jsExt (name : String) : String := ⟨(jsToLower (extname name)).data.drop 1⟩

/-! ## Key generator (lines 50-60) -/

/-- Digits of `rnd.toString(30)`, most significant first, as numbers.
JS renders `0` as the single digit `"0"`. -/
def jsDigits (n : Nat) : List Nat :=
  if n = 0 then [0] else (Nat.digits 30 n).reverse

/-- Application of `padStart(keyLength, "0")` to the digit list (a pad, never a truncation). -/
def padStartZeros (l : List Nat) : List Nat :=
  List.replicate (keyLength - l.length) 0 ++ l

/-- Function `randomKey()` as a function of the random draw
`rnd = Math.floor(Math.random() * 30^4)`: encode `rnd` base 30 and map each
digit through `keyChars`. -/
def randomKeyStr (rnd : Nat) : String :=
  ⟨(padStartZeros (jsDigits rnd)).map (fun d => keyChars.data.getD d ' ')⟩

/-- The body of the `do … while` retry loop of `POST /generate`
(lines 175-183) with the capacity guard `attempts > size` expressed as a
fuel counter: fuel `0` is exactly the state in which the guard fires and
the handler answers with the capacity error. -/
def genLoopAux (ks : List String) (stream : Nat → Nat) : Nat → Nat → Option String
  | 0, _ => none
  | fuel + 1, att =>
    if randomKeyStr (stream att) ∈ ks then genLoopAux ks stream fuel (att + 1)
    else some (randomKeyStr (stream att))

/-- The retry loop of `POST /generate` (lines 175-183): `stream i` is the
random draw of attempt `i`, `ks` the currently live keys, `size` the
registry size; attempt `att` still has `size + 1 - att` permitted
iterations before `attempts > size` fires. -/
def genLoop (ks : List String) (size : Nat) (stream : Nat → Nat) (att : Nat) :
    Option String :=
  genLoopAux ks stream (size + 1 - att) att

/-! ## Upload validation (multer fileFilter, lines 139-162, and
`processFile` type checking, lines 386-400) -/

/-- A file staged by multer: the fields of `file` the core reads. -/
structure Staged where
  path : String
  originalname : String
  size : Nat
  mimetype : String
deriving Repr, DecidableEq

/-- The type/extension test of the multer `fileFilter` (lines 156-159):
`.ok` means the filter calls `cb(null, true)` for this aspect, `.error`
carries the exact message of the `cb(new Error(...), false)` call. -/
def fileFilterTypeCheck (f : Staged) : Except String Unit :=
  let fileExt := jsExt f.originalname
  if (f.mimetype ∉ allowedTypes ∧ f.mimetype ≠ "application/octet-stream")
      ∨ fileExt ∉ allowedExtensions then
    Except.error ("Invalid filetype: " ++ f.originalname ++ " (" ++ f.mimetype ++ ")")
  else Except.ok ()

/-- Lines 386-390: declared mimetype after octet-stream sniffing and
legacy-EPUB normalization.  `sniffed` is `type?.mime` from
`FileType.fromFile`. -/
def effectiveMime (declared : String) (sniffed : Option String) : String :=
  let m := if declared = "application/octet-stream" then
             match sniffed with
             | some t => t
             | none => declared
           else declared
  if m = "application/epub" then TYPE_EPUB else m

/-- The acceptance condition of `processFile` (line 392): the negation of
`(!type || !allowedTypes.includes(type.mime)) && !allowedTypes.includes(mimetype)`. -/
def processTypeOk (declared : String) (sniffed : Option String) : Bool :=
  ¬(((sniffed = none ∨ ∀ t, sniffed = some t → t ∉ allowedTypes))
      ∧ effectiveMime declared sniffed ∉ allowedTypes)

/-- Expression `type ? type.mime : "unknown mimetype"` (line 397). -/
def detectedStr (sniffed : Option String) : String :=
  match sniffed with
  | some t => t
  | none => "unknown mimetype"

/-- The per-file type error thrown by `processFile` (lines 393-399), kept
structured: which file and which detected type the message names. -/
structure TypeErr where
  fname : String
  detected : String
deriving Repr, DecidableEq

/-- Rendering of the thrown error message (lines 393-399). -/
def typeErrMsg (e : TypeErr) : String :=
  "Uploaded file is of an invalid type: " ++ e.fname ++ " (" ++ e.detected ++ ")"

/-- The type gate of `processFile` (lines 386-400). -/
def processFileTypeCheck (f : Staged) (sniffed : Option String) :
    Except TypeErr Unit :=
  if processTypeOk f.mimetype sniffed then Except.ok ()
  else Except.error ⟨f.originalname, detectedStr sniffed⟩

/-- The upload loop's handling of one file through the type gate
(lines 285-294): on a `processFile` type error the handler catch deletes the
staged artifact (`fs.unlink(file.path)`, line 293). -/
def processUploadedFile (f : Staged) (sniffed : Option String) :
    Except TypeErr Unit × List String :=
  match processFileTypeCheck f sniffed with
  | Except.ok () => (Except.ok (), [])
  | Except.error e => (Except.error e, [f.path])

/-! ## Conversion dispatch (lines 404-455) -/

/-- Outcome of `spawn`: either the `error` event (launch failure) or the
`close` event with an exit code. -/
inductive SpawnOutcome
  | launchError (msg : String)
  | exited (code : Int)
deriving Repr, DecidableEq

/-- Case-insensitive `.replace(/\.epub$/i, repl)`. -/
def replaceEpubSuffix (s repl : String) : String :=
  if listStartsWith (jsToLower s).data.reverse ".epub".data.reverse then
    ⟨s.data.take (s.data.length - 5)⟩ ++ repl
  else s

/-- The kindlegen branch of `processFile` (lines 404-430), as a function of
the subprocess outcome: the promise's resolution (`.ok outname` or the
rejection message) together with the list of paths unlinked after the run. -/
def kindlegenRun (path : String) (collected : String) (o : SpawnOutcome) :
    Except String String × List String :=
  let outname := replaceEpubSuffix path ".mobi"
  let cleanup := [path, replaceEpubSuffix path ".mobi8"]
  match o with
  | SpawnOutcome.launchError e =>
      (Except.error ("kindlegen error: " ++ e), cleanup)
  | SpawnOutcome.exited code =>
      ((if code ≠ 0 ∧ code ≠ 1 then
          Except.error ("kindlegen error code: " ++ toString code ++ "\n" ++ collected)
        else Except.ok outname), cleanup)

/-- The kepubify branch of `processFile` (lines 431-455), same reading. -/
def kepubifyRun (path : String) (collected : String) (o : SpawnOutcome) :
    Except String String × List String :=
  let outname := replaceEpubSuffix path ".kepub.epub"
  let cleanup := [path]
  match o with
  | SpawnOutcome.launchError e =>
      (Except.error ("kepubify error: " ++ e), cleanup)
  | SpawnOutcome.exited code =>
      ((if code ≠ 0 then
          Except.error ("Kepubify error code: " ++ toString code ++ "\n" ++ collected)
        else Except.ok outname), cleanup)

/-! ## Kindle display-filename rewrite (line 384) -/

/-- The characters the regex class `[\.\w\-"'\(\)]` lists besides `\w`. -/
def kindleClassChars : List Char := ['.', '-', '"', '\'', '(', ')']

/-- JS `\w`: ASCII letters, digits, underscore. -/
def jsWordChar (c : Char) : Bool := c.isAlphanum || c = '_'

/-- Membership in the regex class `[\.\w\-"'\(\)]` of line 384. -/
def kindleAllowed (c : Char) : Bool := jsWordChar c || c ∈ kindleClassChars

/-- Rewrite `filename.replace(/[^\.\w\-"'\(\)]/g, "_")` of line 384. -/
def kindleFix (name : String) : String :=
  ⟨name.data.map (fun c => if kindleAllowed c then c else '_')⟩

/-- Line 384 as a whole: the rewrite is applied exactly when the session's
device-identity string contains "Kindle". -/
def kindleStep (agent name : String) : String :=
  if jsIncludes agent "Kindle" then kindleFix name else name

/-! ## Key resolution for uploads (`getKeyFromRequest`, lines 62-81) -/

/-- The pieces of an upload request the key resolution reads; `none` models
an absent (or non-string) value. -/
structure UpReq where
  headerKey : Option String
  queryKey : Option String
  bodyKey : Option String
  files : List Staged
deriving Repr, DecidableEq

/-- Function `getKeyFromRequest(req, ctx)` (lines 62-81). -/
def getKeyFromRequest (r : UpReq) : Option String :=
  let hdrHit := match r.headerKey with
    | some h => if jsTrim h = "" then none else some (jsToUpper (jsTrim h))
    | none => none
  match hdrHit with
  | some k => some k
  | none =>
    let qHit := match r.queryKey with
      | some q => if jsTrim q = "" then none else some (jsToUpper (jsTrim q))
      | none => none
    match qHit with
    | some k => some k
    | none =>
      match r.bodyKey with
      | some b => if b ≠ "" ∧ jsTrim b ≠ "" then some (jsToUpper (jsTrim b)) else none
      | none => none

/-- Outcome of the key-resolution prefix of `POST /upload`
(lines 246-264). -/
inductive UploadPre
  | rejected (msg : String) (deletedPaths : List String)
  | accepted (key : String)
deriving Repr, DecidableEq

/-! ## Session registry state (lines 89-123, 167-205, 212-235, 246-273,
321-336, 338-358) -/

/-- One entry of `info.files`. -/
structure FileRec where
  name : String
  path : String
  uploaded : Nat
  conversion : Option String
deriving Repr, DecidableEq

/-- The `info` object of a session (lines 187-194).  `id` is a ghost field
standing for JS object identity, so that the hard-cap closure's
`ctx.keys.get(key) === info` check can be expressed. -/
structure SessionInfo where
  id : Nat
  created : Nat
  agent : String
  files : List FileRec
  urls : List String
  timer : Option Nat
  alive : Nat
deriving Repr, DecidableEq

/-- What a pending `setTimeout` callback will do.
`removeKeyAt key owner`: the renewable timer `setTimeout(removeKey,
expireDelay*1000, key)` of `expireKey` (`owner` is ghost: the id of the
session it was scheduled for, `0` when there was none).
`hardCap key sid`: the creation-time timer of lines 199-201, whose closure
runs `removeKey` only if the object registered under `key` is still the
captured `info` (identity `sid`). -/
inductive TAction
  | removeKeyAt (key : String) (owner : Nat)
  | hardCap (key : String) (sid : Nat)
deriving Repr, DecidableEq

/-- A pending timer: its due instant and its callback. -/
structure PTimer where
  due : Nat
  act : TAction
deriving Repr, DecidableEq

/-- Global mutable state of the process: the `app.context.keys` map, the
pending timers of the event loop, allocation counters for timer handles and
object identities, the current time, and a ghost log of every path passed
to `fs.unlink`. -/
structure St where
  keys : List (String × SessionInfo)
  timers : List (Nat × PTimer)
  nextTimer : Nat
  nextObj : Nat
  now : Nat
  deleted : List String
deriving Repr, DecidableEq

def initSt : St := ⟨[], [], 0, 0, 0, []⟩

/-- Lookup, as `Map.get`: value of the first entry with the given key. -/
def lookupA {α β : Type} [DecidableEq α] : List (α × β) → α → Option β
  | [], _ => none
  | (k, v) :: rest, key => if k = key then some v else lookupA rest key

/-- Mutating the object registered under `key` (JS mutates in place, which
preserves insertion order). -/
def updateA {α β : Type} [DecidableEq α] : List (α × β) → α → β → List (α × β)
  | [], _, _ => []
  | (k, v) :: rest, key, v' =>
    if k = key then (k, v') :: rest else (k, v) :: updateA rest key v'

/-- Removal, as `Map.delete` or `clearTimeout`: drop the first entry with the key. -/
def eraseA {α β : Type} [DecidableEq α] : List (α × β) → α → List (α × β)
  | [], _ => []
  | (k, v) :: rest, key => if k = key then rest else (k, v) :: eraseA rest key

/-- Call `clearTimeout(info.timer)` where `info.timer` may be `null`. -/
def eraseTOpt (ts : List (Nat × PTimer)) : Option Nat → List (Nat × PTimer)
  | none => ts
  | some tid => eraseA ts tid

/-- Function `removeKey(key)` (lines 93-112): no-op on an absent key; otherwise
clear the stored (renewable) timer handle, unlink every file artifact, and
delete the map entry. -/
def removeKey (s : St) (key : String) : St :=
  match lookupA s.keys key with
  | none => s
  | some info =>
    { s with
        timers := eraseTOpt s.timers info.timer,
        deleted := s.deleted ++ info.files.map (·.path),
        keys := eraseA s.keys key }

/-- Function `expireKey(key)` (lines 114-123): unconditionally schedule a fresh
`removeKey` timer; when the key is registered, clear the old handle and
store the new one along with a fresh `alive` timestamp. -/
def expireKey (s : St) (key : String) : St :=
  match lookupA s.keys key with
  | none =>
    { s with
        timers := s.timers ++ [(s.nextTimer, ⟨s.now + expireDelayMs, TAction.removeKeyAt key 0⟩)],
        nextTimer := s.nextTimer + 1 }
  | some info =>
    { s with
        timers := eraseTOpt
          (s.timers ++ [(s.nextTimer, ⟨s.now + expireDelayMs, TAction.removeKeyAt key info.id⟩)])
          info.timer,
        keys := updateA s.keys key { info with timer := some s.nextTimer, alive := s.now },
        nextTimer := s.nextTimer + 1 }

/-- Responses, kept at the granularity the claims need. -/
inductive Resp
  | body (msg : String)
  | notFound
  | forbidden
  | errorResp
  | keyIssued (k : String)
  | passThrough
deriving Repr, DecidableEq

/-- Route `GET /status/:key` (lines 212-235): uppercase the key, 404 on an
unknown key, 403 on a device-identity mismatch, otherwise renew. -/
def statusR (s : St) (keyRaw agent : String) : St × Resp :=
  let key := jsToUpper keyRaw
  match lookupA s.keys key with
  | none => (s, Resp.notFound)
  | some info =>
    if info.agent ≠ agent then (s, Resp.forbidden)
    else (expireKey s key, Resp.body "status")

/-- Handler `downloadFile` (lines 338-358): fall through on a missing/empty query
key, unknown key or unknown filename; 403 on identity mismatch; otherwise
renew and stream. -/
def downloadR (s : St) (keyQ : Option String) (filename agent : String) :
    St × Resp :=
  match keyQ with
  | none => (s, Resp.passThrough)
  | some kq =>
    if kq = "" then (s, Resp.passThrough)
    else
      let key := jsToUpper kq
      match lookupA s.keys key with
      | none => (s, Resp.passThrough)
      | some info =>
        match info.files.find? (fun f => f.name = filename) with
        | none => (s, Resp.passThrough)
        | some _ =>
          if info.agent ≠ agent then (s, Resp.forbidden)
          else (expireKey s key, Resp.body "file")

/-- Route `DELETE /file/:key/:filename` (lines 321-336): 400 on an unknown key;
otherwise unlink and splice out the first file whose display name matches
(a silent no-op when none does).  The session TTL is not touched. -/
def removeFirstFile : List FileRec → String → List FileRec
  | [], _ => []
  | f :: fs, n => if f.name = n then fs else f :: removeFirstFile fs n

def deleteFileR (s : St) (keyRaw filename : String) : St × Resp :=
  let key := jsToUpper keyRaw
  match lookupA s.keys key with
  | none => (s, Resp.errorResp)
  | some info =>
    match info.files.find? (fun f => f.name = filename) with
    | none => (s, Resp.body "ok")
    | some f =>
      ({ s with
          deleted := s.deleted ++ [f.path],
          keys := updateA s.keys key { info with files := removeFirstFile info.files filename } },
       Resp.body "ok")

/-- The synchronous prefix of the `POST /upload` handler once the key is
known live (lines 266-273): renew, then record a submitted URL unless it is
blank or already present. -/
def uploadTouch (s : St) (key : String) (url : Option String) : St :=
  match lookupA s.keys key with
  | none => s
  | some _ =>
    let s1 := expireKey s key
    match url with
    | none => s1
    | some u0 =>
      let u := jsTrim u0
      if u ≠ "" then
        match lookupA s1.keys key with
        | some info =>
          if u ∈ info.urls then s1
          else { s1 with keys := updateA s1.keys key { info with urls := info.urls ++ [u] } }
        | none => s1
      else s1

/-- Push `info.files.push(processedFile)` after an awaited `processFile`
(line 288).  The handler pushes into the object captured before the await;
the registry is affected exactly when that object (identity `sid`) is still
the one registered under `key`. -/
def uploadPush (s : St) (key : String) (sid : Nat) (rec : FileRec) : St :=
  match lookupA s.keys key with
  | some info =>
    if info.id = sid then
      { s with keys := updateA s.keys key { info with files := info.files ++ [rec] } }
    else s
  | none => s

/-- The key-resolution and rejection prefix of `POST /upload`
(lines 246-264): resolve the key via `getKeyFromRequest`; on a missing or
unknown key unlink every staged file and flash a single failure message. -/
def uploadPre (reg : List (String × SessionInfo)) (r : UpReq) : UploadPre :=
  match getKeyFromRequest r with
  | none =>
    UploadPre.rejected "Missing key (send x-upload-key header)."
      (r.files.map (·.path))
  | some k =>
    match lookupA reg k with
    | none => UploadPre.rejected ("Unknown key " ++ k) (r.files.map (·.path))
    | some _ => UploadPre.accepted k

/-- Predicate `Except.isOk` spelled out, used to state converter success. -/
def exOk {ε α : Type} : Except ε α → Bool
  | Except.ok _ => true
  | Except.error _ => false

/-- Route `POST /generate` (lines 167-205): run the retry loop against the
current registry; on success insert a fresh session, call `expireKey`, and
schedule the identity-guarded hard-cap timer. -/
def generateR (s : St) (agent : String) (stream : Nat → Nat) : St × Resp :=
  match genLoop (s.keys.map Prod.fst) s.keys.length stream 0 with
  | none => (s, Resp.errorResp)
  | some key =>
    let info : SessionInfo :=
      { id := s.nextObj, created := s.now, agent := agent,
        files := [], urls := [], timer := none, alive := s.now }
    let s1 := { s with keys := s.keys ++ [(key, info)], nextObj := s.nextObj + 1 }
    let s2 := expireKey s1 key
    let s3 := { s2 with
        timers := s2.timers ++ [(s2.nextTimer, ⟨s2.now + maxExpireMs, TAction.hardCap key info.id⟩)],
        nextTimer := s2.nextTimer + 1 }
    (s3, Resp.keyIssued key)

/-- Running the pending timer `tid` (only enabled once its due instant has
been reached): remove it from the pending table, then run its callback.  A
`removeKeyAt` callback is `removeKey` itself (line 116, unguarded); a
`hardCap` callback first re-checks that the captured object is still the
registered one (line 200). -/
def fireTimer (s : St) (tid : Nat) : St :=
  match lookupA s.timers tid with
  | none => s
  | some tm =>
    if tm.due ≤ s.now then
      match tm.act with
      | TAction.removeKeyAt key _ =>
        removeKey { s with timers := eraseA s.timers tid } key
      | TAction.hardCap key sid =>
        match lookupA s.keys key with
        | some info =>
          if info.id = sid then removeKey { s with timers := eraseA s.timers tid } key
          else { s with timers := eraseA s.timers tid }
        | none => { s with timers := eraseA s.timers tid }
    else s

/-- The events that mutate the registry or the timer table. -/
inductive Act
  | generate (agent : String) (stream : Nat → Nat)
  | status (keyRaw agent : String)
  | upload (key : String) (url : Option String)
  | uploadFile (key : String) (sid : Nat) (rec : FileRec)
  | download (keyQ : Option String) (filename agent : String)
  | delFile (keyRaw filename : String)
  | fire (tid : Nat)
  | tick (t : Nat)

/-- One step of the event loop.  `tick` may advance the clock, but never
past the due instant of a pending timer: due callbacks run before time
moves on. -/
def step (s : St) : Act → St
  | Act.generate a str => (generateR s a str).1
  | Act.status k a => (statusR s k a).1
  | Act.upload k u => uploadTouch s k u
  | Act.uploadFile k sid rec => uploadPush s k sid rec
  | Act.download kq f a => (downloadR s kq f a).1
  | Act.delFile k f => (deleteFileR s k f).1
  | Act.fire tid => fireTimer s tid
  | Act.tick t =>
    if s.now ≤ t ∧ (∀ p ∈ s.timers, t ≤ p.2.due) then { s with now := t } else s

/-- States the process can be in: the empty registry at time zero, closed
under steps. -/
inductive Reachable : St → Prop
  | init : Reachable initSt
  | step {s : St} (h : Reachable s) (a : Act) : Reachable (step s a)

/-! ## Association-list lemmas -/

section AList

variable {α β : Type} [DecidableEq α]

theorem lookupA_mem {l : List (α × β)} {k : α} {v : β}
    (h : lookupA l k = some v) : (k, v) ∈ l := by
  induction l with
  | nil => simp [lookupA] at h
  | cons p rest ih =>
    obtain ⟨k', v'⟩ := p
    by_cases hk : k' = k
    · subst hk
      simp [lookupA] at h
      subst h; exact List.mem_cons_self _ _
    · simp [lookupA, hk] at h
      exact List.mem_cons_of_mem _ (ih h)

theorem lookupA_eq_none {l : List (α × β)} {k : α} :
    lookupA l k = none ↔ k ∉ l.map Prod.fst := by
  induction l with
  | nil => simp [lookupA]
  | cons p rest ih =>
    obtain ⟨k', v'⟩ := p
    by_cases hk : k' = k
    · subst hk; simp [lookupA]
    · simp [lookupA, hk, ih, Ne.symm hk]

theorem lookupA_isSome_of_mem {l : List (α × β)} {k : α} {v : β}
    (h : (k, v) ∈ l) : (lookupA l k).isSome := by
  induction l with
  | nil => simp at h
  | cons p rest ih =>
    obtain ⟨k', v'⟩ := p
    by_cases hk : k' = k
    · simp [lookupA, hk]
    · simp only [lookupA, if_neg hk]
      rcases List.mem_cons.mp h with h1 | h1
      · simp only [Prod.mk.injEq] at h1
        exact absurd h1.1.symm hk
      · exact ih h1

theorem lookupA_append_of_none {l l' : List (α × β)} {k : α}
    (h : lookupA l k = none) : lookupA (l ++ l') k = lookupA l' k := by
  induction l with
  | nil => rfl
  | cons p rest ih =>
    obtain ⟨k', v'⟩ := p
    by_cases hk : k' = k
    · simp [lookupA, hk] at h
    · simp only [List.cons_append, lookupA, if_neg hk] at h ⊢
      exact ih h

theorem lookupA_append_of_some {l l' : List (α × β)} {k : α} {v : β}
    (h : lookupA l k = some v) : lookupA (l ++ l') k = some v := by
  induction l with
  | nil => simp [lookupA] at h
  | cons p rest ih =>
    obtain ⟨k', v'⟩ := p
    by_cases hk : k' = k
    · simp_all [lookupA]
    · simp only [lookupA, if_neg hk] at h
      simpa only [List.cons_append, lookupA, if_neg hk] using ih h

theorem map_fst_updateA {l : List (α × β)} {k : α} {v' : β} :
    (updateA l k v').map Prod.fst = l.map Prod.fst := by
  induction l with
  | nil => rfl
  | cons p rest ih =>
    obtain ⟨k', v⟩ := p
    by_cases hk : k' = k <;> simp [updateA, hk, ih]

theorem mem_updateA {l : List (α × β)} {k : α} {v' : β} {kv : α × β}
    (h : kv ∈ updateA l k v') : kv ∈ l ∨ kv = (k, v') := by
  induction l with
  | nil => simp [updateA] at h
  | cons p rest ih =>
    obtain ⟨k', v⟩ := p
    by_cases hk : k' = k
    · subst hk
      simp only [updateA, if_pos rfl] at h
      rcases List.mem_cons.mp h with h1 | h1
      · exact Or.inr h1
      · exact Or.inl (List.mem_cons_of_mem _ h1)
    · simp only [updateA, if_neg hk] at h
      rcases List.mem_cons.mp h with h1 | h1
      · exact Or.inl (h1 ▸ List.mem_cons_self _ _)
      · rcases ih h1 with h2 | h2
        · exact Or.inl (List.mem_cons_of_mem _ h2)
        · exact Or.inr h2

theorem updateA_mem_of_ne {l : List (α × β)} {k : α} {v' : β} {kv : α × β}
    (h : kv ∈ l) (hne : kv.1 ≠ k) : kv ∈ updateA l k v' := by
  induction l with
  | nil => simp at h
  | cons p rest ih =>
    obtain ⟨k', v⟩ := p
    rcases List.mem_cons.mp h with h1 | h1
    · rw [h1] at hne ⊢
      have hne' : ¬ k' = k := hne
      simp only [updateA]
      rw [if_neg hne']
      exact List.mem_cons_self _ _
    · by_cases hk : k' = k
      · simp only [updateA, if_pos hk]
        exact List.mem_cons_of_mem _ h1
      · simp only [updateA, if_neg hk]
        exact List.mem_cons_of_mem _ (ih h1)

theorem updateA_self_mem {l : List (α × β)} {k : α} {v v' : β}
    (h : lookupA l k = some v) : (k, v') ∈ updateA l k v' := by
  induction l with
  | nil => simp [lookupA] at h
  | cons p rest ih =>
    obtain ⟨k', w⟩ := p
    by_cases hk : k' = k
    · subst hk
      simp only [updateA, if_pos rfl]
      exact List.mem_cons_self _ _
    · simp only [lookupA, if_neg hk] at h
      simp only [updateA, if_neg hk]
      exact List.mem_cons_of_mem _ (ih h)

theorem lookupA_updateA_self {l : List (α × β)} {k : α} {v v' : β}
    (h : lookupA l k = some v) : lookupA (updateA l k v') k = some v' := by
  induction l with
  | nil => simp [lookupA] at h
  | cons p rest ih =>
    obtain ⟨k', w⟩ := p
    by_cases hk : k' = k
    · subst hk; simp [updateA, lookupA]
    · simp only [lookupA, if_neg hk] at h
      simp only [updateA, if_neg hk, lookupA]
      exact ih h

theorem lookupA_updateA_ne {l : List (α × β)} {k k' : α} {v' : β}
    (h : k' ≠ k) : lookupA (updateA l k v') k' = lookupA l k' := by
  induction l with
  | nil => rfl
  | cons p rest ih =>
    obtain ⟨ka, v⟩ := p
    by_cases hk : ka = k
    · subst hk
      have hne : ¬ ka = k' := fun hc => h hc.symm
      simp only [updateA, if_pos rfl, lookupA, if_neg hne]
    · simp only [updateA, if_neg hk, lookupA]
      by_cases hk' : ka = k'
      · simp [hk']
      · simp only [if_neg hk']
        exact ih

theorem eraseA_sublist (l : List (α × β)) (k : α) : (eraseA l k).Sublist l := by
  induction l with
  | nil => simp [eraseA]
  | cons p rest ih =>
    obtain ⟨k', v⟩ := p
    by_cases hk : k' = k
    · simp only [eraseA, if_pos hk]
      exact List.sublist_cons_self _ _
    · simp only [eraseA, if_neg hk]
      exact List.Sublist.cons₂ _ ih

theorem mem_eraseA {l : List (α × β)} {k : α} {kv : α × β}
    (h : kv ∈ eraseA l k) : kv ∈ l := (eraseA_sublist l k).mem h

theorem eraseA_mem_of_ne {l : List (α × β)} {k : α} {kv : α × β}
    (h : kv ∈ l) (hne : kv.1 ≠ k) : kv ∈ eraseA l k := by
  induction l with
  | nil => simp at h
  | cons p rest ih =>
    obtain ⟨k', v⟩ := p
    rcases List.mem_cons.mp h with h1 | h1
    · subst h1
      simp only [eraseA]
      rw [if_neg hne]
      exact List.mem_cons_self _ _
    · by_cases hk : k' = k
      · simp only [eraseA, if_pos hk]; exact h1
      · simp only [eraseA, if_neg hk]
        exact List.mem_cons_of_mem _ (ih h1)

theorem mem_eraseA_fst_ne {l : List (α × β)} {k : α} {kv : α × β}
    (nd : (l.map Prod.fst).Nodup) (h : kv ∈ eraseA l k) : kv.1 ≠ k := by
  induction l with
  | nil => simp [eraseA] at h
  | cons p rest ih =>
    obtain ⟨k', v⟩ := p
    simp only [List.map_cons, List.nodup_cons] at nd
    by_cases hk : k' = k
    · subst hk
      simp only [eraseA, if_pos rfl] at h
      intro hc
      exact nd.1 (hc ▸ List.mem_map_of_mem Prod.fst h)
    · simp only [eraseA, if_neg hk] at h
      rcases List.mem_cons.mp h with h1 | h1
      · subst h1; exact hk
      · exact ih nd.2 h1

theorem lookupA_eraseA_ne {l : List (α × β)} {k k' : α}
    (h : k' ≠ k) : lookupA (eraseA l k) k' = lookupA l k' := by
  induction l with
  | nil => rfl
  | cons p rest ih =>
    obtain ⟨ka, v⟩ := p
    by_cases hk : ka = k
    · subst hk
      have hne : ¬ ka = k' := fun hc => h hc.symm
      simp [eraseA, lookupA, hne]
    · simp only [eraseA, if_neg hk, lookupA]
      by_cases hk' : ka = k'
      · simp [hk']
      · simp only [if_neg hk']
        exact ih

theorem lookupA_eraseA_self {l : List (α × β)} {k : α}
    (nd : (l.map Prod.fst).Nodup) : lookupA (eraseA l k) k = none := by
  rw [lookupA_eq_none]
  intro hmem
  obtain ⟨kv, hkv, hfst⟩ := List.mem_map.mp hmem
  exact mem_eraseA_fst_ne nd hkv hfst

theorem eraseA_of_none {l : List (α × β)} {k : α}
    (h : lookupA l k = none) : eraseA l k = l := by
  induction l with
  | nil => rfl
  | cons p rest ih =>
    obtain ⟨k', v⟩ := p
    by_cases hk : k' = k
    · simp [lookupA, hk] at h
    · simp only [lookupA, if_neg hk] at h
      simp only [eraseA, if_neg hk, ih h]

theorem eraseA_append_of_some {l l' : List (α × β)} {k : α} {v : β}
    (h : lookupA l k = some v) : eraseA (l ++ l') k = eraseA l k ++ l' := by
  induction l with
  | nil => simp [lookupA] at h
  | cons p rest ih =>
    obtain ⟨k', w⟩ := p
    by_cases hk : k' = k
    · simp [eraseA, hk]
    · simp only [lookupA, if_neg hk] at h
      simp only [List.cons_append, eraseA, if_neg hk]
      exact congrArg _ (ih h)

theorem lookupA_eq_of_mem {l : List (α × β)} (nd : (l.map Prod.fst).Nodup)
    {k : α} {v : β} (h : (k, v) ∈ l) : lookupA l k = some v := by
  induction l with
  | nil => simp at h
  | cons p rest ih =>
    obtain ⟨k', v'⟩ := p
    simp only [List.map_cons, List.nodup_cons] at nd
    rcases List.mem_cons.mp h with h1 | h1
    · simp only [Prod.mk.injEq] at h1
      obtain ⟨h2, h3⟩ := h1
      simp [lookupA, h2.symm, h3]
    · by_cases hk : k' = k
      · subst hk
        exact absurd (List.mem_map_of_mem Prod.fst h1) nd.1
      · simp only [lookupA, if_neg hk]
        exact ih nd.2 h1

theorem mem_unique_of_nodup_fst {l : List (α × β)}
    (nd : (l.map Prod.fst).Nodup) {i : α} {x y : β}
    (hx : (i, x) ∈ l) (hy : (i, y) ∈ l) : x = y := by
  have h1 := lookupA_eq_of_mem nd hx
  have h2 := lookupA_eq_of_mem nd hy
  rw [h1] at h2
  exact (Option.some.injEq .. ▸ h2).symm ▸ rfl

theorem mem_updateA_cases {l : List (α × β)} {k : α} {v' : β} {kv : α × β}
    (nd : (l.map Prod.fst).Nodup) (h : kv ∈ updateA l k v') :
    (kv ∈ l ∧ kv.1 ≠ k) ∨ kv = (k, v') := by
  induction l with
  | nil => simp [updateA] at h
  | cons p rest ih =>
    obtain ⟨ka, v⟩ := p
    simp only [List.map_cons, List.nodup_cons] at nd
    by_cases hk : ka = k
    · subst hk
      simp only [updateA, if_pos rfl] at h
      rcases List.mem_cons.mp h with h1 | h1
      · exact Or.inr h1
      · refine Or.inl ⟨List.mem_cons_of_mem _ h1, fun hc => ?_⟩
        exact nd.1 (hc ▸ List.mem_map_of_mem Prod.fst h1)
    · simp only [updateA, if_neg hk] at h
      rcases List.mem_cons.mp h with h1 | h1
      · exact Or.inl ⟨h1 ▸ List.mem_cons_self _ _, h1 ▸ hk⟩
      · rcases ih nd.2 h1 with ⟨h2, h3⟩ | h2
        · exact Or.inl ⟨List.mem_cons_of_mem _ h2, h3⟩
        · exact Or.inr h2

theorem updateA_append_fresh {l : List (α × β)} {k : α} {v v' : β}
    (h : lookupA l k = none) : updateA (l ++ [(k, v)]) k v' = l ++ [(k, v')] := by
  induction l with
  | nil => simp [updateA]
  | cons p rest ih =>
    obtain ⟨k', w⟩ := p
    by_cases hk : k' = k
    · simp [lookupA, hk] at h
    · simp only [lookupA, if_neg hk] at h
      simp only [List.cons_append, updateA, if_neg hk]
      exact congrArg _ (ih h)

theorem nodup_fst_eraseA {l : List (α × β)} {k : α}
    (nd : (l.map Prod.fst).Nodup) : ((eraseA l k).map Prod.fst).Nodup :=
  ((eraseA_sublist l k).map Prod.fst).nodup nd

theorem nodup_fst_updateA {l : List (α × β)} {k : α} {v' : β}
    (nd : (l.map Prod.fst).Nodup) : ((updateA l k v').map Prod.fst).Nodup := by
  rw [map_fst_updateA]
  exact nd

omit [DecidableEq α] in
theorem nodup_fst_snoc {l : List (α × β)} {i : α} {x : β}
    (nd : (l.map Prod.fst).Nodup) (h : ∀ p ∈ l, p.1 ≠ i) :
    ((l ++ [(i, x)]).map Prod.fst).Nodup := by
  rw [List.map_append]
  refine List.Nodup.append nd (List.nodup_singleton i) ?_
  intro a ha hb
  simp only [List.map_cons, List.map_nil, List.mem_singleton] at hb
  obtain ⟨p, hp, hpa⟩ := List.mem_map.mp ha
  exact h p hp (hpa.trans hb)

end AList

/-! ## The registry/timer invariant -/

/-- Well-formedness maintained by every event: registry keys and timer
handles are unique, handles are below the allocation counter, no pending
timer is overdue (due callbacks run before the clock advances), every live
session owns a pending hard-cap timer due exactly at `created + maxExpireMs`
and a pending renewable timer recorded in its `timer` field, and every
pending renewable timer belongs to the session currently registered under
its key. -/
structure Inv (s : St) : Prop where
  keysND : (s.keys.map Prod.fst).Nodup
  timersND : (s.timers.map Prod.fst).Nodup
  timersLT : ∀ p ∈ s.timers, p.1 < s.nextTimer
  dueGE : ∀ p ∈ s.timers, s.now ≤ p.2.due
  hard : ∀ kv ∈ s.keys, ∃ tid,
    (tid, ⟨kv.2.created + maxExpireMs, TAction.hardCap kv.1 kv.2.id⟩) ∈ s.timers
  renewPend : ∀ kv ∈ s.keys, ∃ tid d, kv.2.timer = some tid ∧
    (tid, ⟨d, TAction.removeKeyAt kv.1 kv.2.id⟩) ∈ s.timers
  renewOwn : ∀ tid d k o, (tid, ⟨d, TAction.removeKeyAt k o⟩) ∈ s.timers →
    ∃ info, lookupA s.keys k = some info ∧ info.timer = some tid ∧ info.id = o

theorem inv_init : Inv initSt := by
  constructor <;> simp [initSt]

theorem expireKey_live_eq {s : St} {key : String} {info : SessionInfo}
    (hl : lookupA s.keys key = some info) :
    expireKey s key =
      { s with
          timers := eraseTOpt
            (s.timers ++ [(s.nextTimer, ⟨s.now + expireDelayMs, TAction.removeKeyAt key info.id⟩)])
            info.timer,
          keys := updateA s.keys key { info with timer := some s.nextTimer, alive := s.now },
          nextTimer := s.nextTimer + 1 } := by
  unfold expireKey
  rw [hl]

theorem expireKey_none_eq {s : St} {key : String}
    (hl : lookupA s.keys key = none) :
    expireKey s key =
      { s with
          timers := s.timers ++ [(s.nextTimer, ⟨s.now + expireDelayMs, TAction.removeKeyAt key 0⟩)],
          nextTimer := s.nextTimer + 1 } := by
  unfold expireKey
  rw [hl]

theorem removeKey_live_eq {s : St} {key : String} {info : SessionInfo}
    (hl : lookupA s.keys key = some info) :
    removeKey s key =
      { s with
          timers := eraseTOpt s.timers info.timer,
          deleted := s.deleted ++ info.files.map (·.path),
          keys := eraseA s.keys key } := by
  unfold removeKey
  rw [hl]

theorem removeKey_none_eq {s : St} {key : String}
    (hl : lookupA s.keys key = none) : removeKey s key = s := by
  unfold removeKey
  rw [hl]

theorem inv_expireKey {s : St} (hs : Inv s) {key : String} {info : SessionInfo}
    (hl : lookupA s.keys key = some info) : Inv (expireKey s key) := by
  obtain ⟨t0, d0, ht0, hmem0⟩ := hs.renewPend (key, info) (lookupA_mem hl)
  have ht0' : info.timer = some t0 := ht0
  have hmem0' : (t0, ⟨d0, TAction.removeKeyAt key info.id⟩) ∈ s.timers := hmem0
  rw [expireKey_live_eq hl]
  simp only [eraseTOpt, ht0']
  obtain ⟨tm0, htm0⟩ := Option.isSome_iff_exists.mp (lookupA_isSome_of_mem hmem0')
  rw [eraseA_append_of_some htm0]
  set nt := s.nextTimer with hnt
  set newT : Nat × PTimer :=
    (nt, ⟨s.now + expireDelayMs, TAction.removeKeyAt key info.id⟩) with hnewT
  set info' : SessionInfo := { info with timer := some nt, alive := s.now } with hinfo'
  have f1 : ∀ p ∈ eraseA s.timers t0, p ∈ s.timers := fun p hp => mem_eraseA hp
  have f2 : ∀ p ∈ eraseA s.timers t0, p.1 ≠ t0 :=
    fun p hp => mem_eraseA_fst_ne hs.timersND hp
  have f3 : ∀ p ∈ eraseA s.timers t0, p.1 < nt :=
    fun p hp => hs.timersLT p (f1 p hp)
  constructor
  · exact nodup_fst_updateA hs.keysND
  · exact nodup_fst_snoc (nodup_fst_eraseA hs.timersND)
      (fun p hp => Nat.ne_of_lt (f3 p hp))
  · intro p hp
    rcases List.mem_append.mp hp with h | h
    · exact Nat.lt_succ_of_lt (f3 p h)
    · rw [List.mem_singleton.mp h]
      exact Nat.lt_succ_self nt
  · intro p hp
    rcases List.mem_append.mp hp with h | h
    · exact hs.dueGE p (f1 p h)
    · rw [List.mem_singleton.mp h]
      exact Nat.le_add_right _ _
  · intro kv hkv
    rcases mem_updateA_cases hs.keysND hkv with ⟨hin, hne⟩ | heq
    · obtain ⟨th, hth⟩ := hs.hard kv hin
      have hth_ne : th ≠ t0 := by
        intro hc
        subst hc
        have := mem_unique_of_nodup_fst hs.timersND hth hmem0'
        simp only [PTimer.mk.injEq] at this
        exact TAction.noConfusion this.2
      exact ⟨th, List.mem_append_left _ (eraseA_mem_of_ne hth hth_ne)⟩
    · subst heq
      obtain ⟨th, hth⟩ := hs.hard (key, info) (lookupA_mem hl)
      have hth_ne : th ≠ t0 := by
        intro hc
        subst hc
        have := mem_unique_of_nodup_fst hs.timersND hth hmem0'
        simp only [PTimer.mk.injEq] at this
        exact TAction.noConfusion this.2
      exact ⟨th, List.mem_append_left _ (eraseA_mem_of_ne hth hth_ne)⟩
  · intro kv hkv
    rcases mem_updateA_cases hs.keysND hkv with ⟨hin, hne⟩ | heq
    · obtain ⟨t1, d1, htm1, hmem1⟩ := hs.renewPend kv hin
      have ht1_ne : t1 ≠ t0 := by
        intro hc
        subst hc
        have := mem_unique_of_nodup_fst hs.timersND hmem1 hmem0'
        simp only [PTimer.mk.injEq, TAction.removeKeyAt.injEq] at this
        exact hne this.2.1
      exact ⟨t1, d1, htm1, List.mem_append_left _ (eraseA_mem_of_ne hmem1 ht1_ne)⟩
    · subst heq
      refine ⟨nt, s.now + expireDelayMs, rfl, List.mem_append_right _ ?_⟩
      exact List.mem_singleton.mpr rfl
  · intro tid d k o hmem
    rcases List.mem_append.mp hmem with h | h
    · have hmem_t : (tid, ⟨d, TAction.removeKeyAt k o⟩) ∈ s.timers := f1 _ h
      obtain ⟨info2, hl2, htm2, hid2⟩ := hs.renewOwn tid d k o hmem_t
      by_cases hk : k = key
      · subst hk
        rw [hl] at hl2
        obtain rfl : info2 = info := by
          exact (Option.some.injEq .. ▸ hl2).symm ▸ rfl
        rw [ht0] at htm2
        have : tid = t0 := (Option.some.injEq .. ▸ htm2.symm) ▸ rfl
        exact absurd this (f2 _ h)
      · refine ⟨info2, ?_, htm2, hid2⟩
        rw [lookupA_updateA_ne hk]
        exact hl2
    · have heq := List.mem_singleton.mp h
      simp only [hnewT, Prod.mk.injEq, PTimer.mk.injEq, TAction.removeKeyAt.injEq] at heq
      obtain ⟨h1, h2, h3, h4⟩ := heq
      subst h1
      subst h3
      subst h4
      exact ⟨info', lookupA_updateA_self hl, rfl, rfl⟩

theorem inv_remove_fired {s : St} (hs : Inv s) {key : String} {info : SessionInfo}
    (hl : lookupA s.keys key = some info) {tid : Nat} {tm : PTimer}
    (hmem : (tid, tm) ∈ s.timers)
    (hact : tm.act = TAction.removeKeyAt key info.id
          ∨ tm.act = TAction.hardCap key info.id) :
    Inv (removeKey { s with timers := eraseA s.timers tid } key) := by
  obtain ⟨t0, d0, ht0, hmem0⟩ := hs.renewPend (key, info) (lookupA_mem hl)
  have ht0' : info.timer = some t0 := ht0
  have hmem0' : (t0, ⟨d0, TAction.removeKeyAt key info.id⟩) ∈ s.timers := hmem0
  have hl1 : lookupA ({ s with timers := eraseA s.timers tid } : St).keys key = some info := hl
  rw [removeKey_live_eq hl1]
  simp only [eraseTOpt, ht0']
  set T2 := eraseA (eraseA s.timers tid) t0 with hT2
  have ndE : ((eraseA s.timers tid).map Prod.fst).Nodup := nodup_fst_eraseA hs.timersND
  have g1 : ∀ p ∈ T2, p ∈ s.timers := fun p hp => mem_eraseA (mem_eraseA hp)
  have g2 : ∀ p ∈ T2, p.1 ≠ t0 := fun p hp => mem_eraseA_fst_ne ndE hp
  have g3 : ∀ p ∈ T2, p.1 ≠ tid :=
    fun p hp => mem_eraseA_fst_ne hs.timersND (mem_eraseA hp)
  have gIn : ∀ p ∈ s.timers, p.1 ≠ tid → p.1 ≠ t0 → p ∈ T2 :=
    fun p hp h1 h2 => eraseA_mem_of_ne (eraseA_mem_of_ne hp h1) h2
  constructor
  · exact nodup_fst_eraseA hs.keysND
  · exact nodup_fst_eraseA ndE
  · exact fun p hp => hs.timersLT p (g1 p hp)
  · exact fun p hp => hs.dueGE p (g1 p hp)
  · intro kv hkv
    have hin : kv ∈ s.keys := mem_eraseA hkv
    have hne : kv.1 ≠ key := mem_eraseA_fst_ne hs.keysND hkv
    obtain ⟨th, hth⟩ := hs.hard kv hin
    refine ⟨th, gIn _ hth ?_ ?_⟩
    · intro hc
      subst hc
      have := mem_unique_of_nodup_fst hs.timersND hth hmem
      rcases hact with ha | ha <;> rw [← this] at ha
      · exact TAction.noConfusion ha
      · simp only [TAction.hardCap.injEq] at ha
        exact hne ha.1
    · intro hc
      subst hc
      have := mem_unique_of_nodup_fst hs.timersND hth hmem0'
      simp only [PTimer.mk.injEq] at this
      exact TAction.noConfusion this.2
  · intro kv hkv
    have hin : kv ∈ s.keys := mem_eraseA hkv
    have hne : kv.1 ≠ key := mem_eraseA_fst_ne hs.keysND hkv
    obtain ⟨t1, d1, htm1, hmem1⟩ := hs.renewPend kv hin
    refine ⟨t1, d1, htm1, gIn _ hmem1 ?_ ?_⟩
    · intro hc
      subst hc
      have := mem_unique_of_nodup_fst hs.timersND hmem1 hmem
      rcases hact with ha | ha <;> rw [← this] at ha
      · simp only [TAction.removeKeyAt.injEq] at ha
        exact hne ha.1
      · exact TAction.noConfusion ha
    · intro hc
      subst hc
      have := mem_unique_of_nodup_fst hs.timersND hmem1 hmem0'
      simp only [PTimer.mk.injEq, TAction.removeKeyAt.injEq] at this
      exact hne this.2.1
  · intro t2 d2 k2 o2 hmem2
    have hin2 : (t2, ⟨d2, TAction.removeKeyAt k2 o2⟩) ∈ s.timers := g1 _ hmem2
    obtain ⟨info2, hl2, htm2, hid2⟩ := hs.renewOwn t2 d2 k2 o2 hin2
    by_cases hk : k2 = key
    · subst hk
      rw [hl] at hl2
      obtain rfl : info2 = info := by
        exact (Option.some.injEq .. ▸ hl2).symm ▸ rfl
      rw [ht0'] at htm2
      have : t2 = t0 := (Option.some.injEq .. ▸ htm2.symm) ▸ rfl
      exact absurd this (g2 _ hmem2)
    · refine ⟨info2, ?_, htm2, hid2⟩
      rw [lookupA_eraseA_ne hk]
      exact hl2

theorem inv_erase_stale_hard {s : St} (hs : Inv s) {tid d : Nat}
    {key : String} {sid : Nat}
    (hmem : (tid, ⟨d, TAction.hardCap key sid⟩) ∈ s.timers)
    (hstale : ∀ info, lookupA s.keys key = some info → info.id ≠ sid) :
    Inv { s with timers := eraseA s.timers tid } := by
  have g1 : ∀ p ∈ eraseA s.timers tid, p ∈ s.timers := fun p hp => mem_eraseA hp
  constructor
  · exact hs.keysND
  · exact nodup_fst_eraseA hs.timersND
  · exact fun p hp => hs.timersLT p (g1 p hp)
  · exact fun p hp => hs.dueGE p (g1 p hp)
  · intro kv hkv
    obtain ⟨th, hth⟩ := hs.hard kv hkv
    refine ⟨th, eraseA_mem_of_ne hth ?_⟩
    intro hc
    subst hc
    have := mem_unique_of_nodup_fst hs.timersND hth hmem
    simp only [PTimer.mk.injEq, TAction.hardCap.injEq] at this
    obtain ⟨hd, hkk, hss⟩ := this
    have hlk : lookupA s.keys kv.1 = some kv.2 := by
      have : (kv.1, kv.2) ∈ s.keys := hkv
      exact lookupA_eq_of_mem hs.keysND this
    rw [hkk] at hlk
    exact hstale kv.2 hlk hss
  · intro kv hkv
    obtain ⟨t1, d1, htm1, hmem1⟩ := hs.renewPend kv hkv
    refine ⟨t1, d1, htm1, eraseA_mem_of_ne hmem1 ?_⟩
    intro hc
    subst hc
    have := mem_unique_of_nodup_fst hs.timersND hmem1 hmem
    simp only [PTimer.mk.injEq] at this
    exact TAction.noConfusion this.2
  · intro t2 d2 k2 o2 hmem2
    exact hs.renewOwn t2 d2 k2 o2 (g1 _ hmem2)

theorem inv_fire {s : St} (hs : Inv s) (tid : Nat) : Inv (fireTimer s tid) := by
  unfold fireTimer
  split
  · exact hs
  next tm heq =>
    have hmem : (tid, tm) ∈ s.timers := lookupA_mem heq
    split
    next hdue =>
      split
      next key owner hact =>
        have hmem' : (tid, (⟨tm.due, TAction.removeKeyAt key owner⟩ : PTimer)) ∈ s.timers := by
          rw [← hact]
          exact hmem
        obtain ⟨info, hl, htm, hid⟩ := hs.renewOwn tid tm.due key owner hmem'
        refine inv_remove_fired hs hl hmem (Or.inl ?_)
        rw [hact, hid]
      next key sid hact =>
        split
        next info hlk =>
          split
          next hguard =>
            refine inv_remove_fired hs hlk hmem (Or.inr ?_)
            rw [hact, hguard]
          next hguard =>
            have hmem' : (tid, (⟨tm.due, TAction.hardCap key sid⟩ : PTimer)) ∈ s.timers := by
              rw [← hact]
              exact hmem
            refine inv_erase_stale_hard hs hmem' ?_
            intro info' hl' hc
            rw [hlk] at hl'
            obtain rfl : info' = info := by
              exact (Option.some.injEq .. ▸ hl').symm ▸ rfl
            exact hguard hc
        next hlk =>
          have hmem' : (tid, (⟨tm.due, TAction.hardCap key sid⟩ : PTimer)) ∈ s.timers := by
            rw [← hact]
            exact hmem
          refine inv_erase_stale_hard hs hmem' ?_
          intro info' hl' hc
          rw [hlk] at hl'
          exact Option.noConfusion hl'
    next hdue => exact hs

theorem inv_update_frame {s : St} (hs : Inv s) {key : String}
    {info : SessionInfo} (info' : SessionInfo) (hl : lookupA s.keys key = some info)
    (hid : info'.id = info.id) (hcr : info'.created = info.created)
    (htm : info'.timer = info.timer) (dl : List String) :
    Inv { s with keys := updateA s.keys key info', deleted := dl } := by
  constructor
  · exact nodup_fst_updateA hs.keysND
  · exact hs.timersND
  · exact hs.timersLT
  · exact hs.dueGE
  · intro kv hkv
    rcases mem_updateA_cases hs.keysND hkv with ⟨hin, _⟩ | hkv'
    · exact hs.hard kv hin
    · subst hkv'
      obtain ⟨th, hth⟩ := hs.hard (key, info) (lookupA_mem hl)
      refine ⟨th, ?_⟩
      simp only [hcr, hid]
      exact hth
  · intro kv hkv
    rcases mem_updateA_cases hs.keysND hkv with ⟨hin, _⟩ | hkv'
    · exact hs.renewPend kv hin
    · subst hkv'
      obtain ⟨t1, d1, htm1, hmem1⟩ := hs.renewPend (key, info) (lookupA_mem hl)
      refine ⟨t1, d1, ?_, ?_⟩
      · simp only [htm]
        exact htm1
      · simp only [hid]
        exact hmem1
  · intro t2 d2 k2 o2 hmem2
    obtain ⟨info2, hl2, htm2, hid2⟩ := hs.renewOwn t2 d2 k2 o2 hmem2
    by_cases hk : k2 = key
    · subst hk
      rw [hl] at hl2
      obtain rfl : info2 = info := by
        exact (Option.some.injEq .. ▸ hl2).symm ▸ rfl
      refine ⟨info', lookupA_updateA_self hl, ?_, ?_⟩
      · rw [htm]
        exact htm2
      · rw [hid]
        exact hid2
    · refine ⟨info2, ?_, htm2, hid2⟩
      rw [lookupA_updateA_ne hk]
      exact hl2

/-! ## Properties of the key-generation retry loop -/

theorem genLoopAux_none_mem (ks : List String) (stream : Nat → Nat) :
    ∀ fuel att, genLoopAux ks stream fuel att = none →
      ∀ i, att ≤ i → i < att + fuel → randomKeyStr (stream i) ∈ ks := by
  intro fuel
  induction fuel with
  | zero =>
    intro att _ i hai hia
    omega
  | succ n ih =>
    intro att h i hai hia
    simp only [genLoopAux] at h
    by_cases hmem : randomKeyStr (stream att) ∈ ks
    · rw [if_pos hmem] at h
      rcases Nat.eq_or_lt_of_le hai with hi | hi
      · rw [← hi]
        exact hmem
      · exact ih (att + 1) h i hi (by omega)
    · rw [if_neg hmem] at h
      exact Option.noConfusion h

theorem genLoopAux_some_mem (ks : List String) (stream : Nat → Nat) :
    ∀ fuel att k, genLoopAux ks stream fuel att = some k →
      k ∉ ks ∧ ∃ i, att ≤ i ∧ i < att + fuel ∧ k = randomKeyStr (stream i) := by
  intro fuel
  induction fuel with
  | zero =>
    intro att k h
    simp [genLoopAux] at h
  | succ n ih =>
    intro att k h
    simp only [genLoopAux] at h
    by_cases hmem : randomKeyStr (stream att) ∈ ks
    · rw [if_pos hmem] at h
      obtain ⟨hnot, i, hi1, hi2, hk⟩ := ih (att + 1) k h
      exact ⟨hnot, i, by omega, by omega, hk⟩
    · rw [if_neg hmem] at h
      have hk : k = randomKeyStr (stream att) := (Option.some.injEq .. ▸ h.symm) ▸ rfl
      subst hk
      exact ⟨hmem, att, Nat.le_refl _, by omega, rfl⟩

theorem genLoop_some_props {ks : List String} {size : Nat} {stream : Nat → Nat}
    {k : String} (h : genLoop ks size stream 0 = some k) :
    k ∉ ks ∧ ∃ i, i ≤ size ∧ k = randomKeyStr (stream i) := by
  obtain ⟨hnot, i, _, hi2, hk⟩ := genLoopAux_some_mem ks stream (size + 1) 0 k h
  exact ⟨hnot, i, by omega, hk⟩

theorem genLoop_none_props {ks : List String} {size : Nat} {stream : Nat → Nat}
    (h : genLoop ks size stream 0 = none) :
    ∀ i, i ≤ size → randomKeyStr (stream i) ∈ ks :=
  fun i hi =>
    genLoopAux_none_mem ks stream (size + 1) 0 h i (Nat.zero_le _) (by omega)

theorem generateR_some_eq {s : St} {agent : String} {stream : Nat → Nat} {key : String}
    (hkey : genLoop (s.keys.map Prod.fst) s.keys.length stream 0 = some key) :
    generateR s agent stream =
      ({ s with
          keys := s.keys ++
            [(key, ⟨s.nextObj, s.now, agent, [], [], some s.nextTimer, s.now⟩)],
          timers := s.timers ++
            [(s.nextTimer, ⟨s.now + expireDelayMs, TAction.removeKeyAt key s.nextObj⟩),
             (s.nextTimer + 1, ⟨s.now + maxExpireMs, TAction.hardCap key s.nextObj⟩)],
          nextTimer := s.nextTimer + 2,
          nextObj := s.nextObj + 1 },
       Resp.keyIssued key) := by
  have hlnone : lookupA s.keys key = none :=
    lookupA_eq_none.mpr (genLoop_some_props hkey).1
  unfold generateR
  rw [hkey]
  simp only []
  have hl1 : lookupA
      (({ s with
          keys := s.keys ++ [(key, ⟨s.nextObj, s.now, agent, [], [], none, s.now⟩)],
          nextObj := s.nextObj + 1 } : St)).keys key =
      some ⟨s.nextObj, s.now, agent, [], [], none, s.now⟩ := by
    show lookupA (s.keys ++ [(key, _)]) key = _
    rw [lookupA_append_of_none hlnone]
    simp [lookupA]
  rw [expireKey_live_eq hl1]
  simp only [eraseTOpt, updateA_append_fresh hlnone, List.append_assoc,
    List.cons_append, List.nil_append]

theorem inv_generate {s : St} (hs : Inv s) (agent : String) (stream : Nat → Nat) :
    Inv (generateR s agent stream).1 := by
  cases hkey : genLoop (s.keys.map Prod.fst) s.keys.length stream 0 with
  | none =>
    unfold generateR
    rw [hkey]
    exact hs
  | some key =>
    rw [generateR_some_eq hkey]
    simp only []
    have hlnone : lookupA s.keys key = none :=
      lookupA_eq_none.mpr (genLoop_some_props hkey).1
    have hfresh : ∀ p ∈ s.keys, p.1 ≠ key := by
      intro p hp hc
      exact (lookupA_eq_none.mp hlnone) (hc ▸ List.mem_map_of_mem Prod.fst hp)
    set nt := s.nextTimer with hnt
    set nO := s.nextObj with hnO
    set info1 : SessionInfo := ⟨nO, s.now, agent, [], [], some nt, s.now⟩ with hinfo1
    set R : Nat × PTimer := (nt, ⟨s.now + expireDelayMs, TAction.removeKeyAt key nO⟩) with hR
    set H : Nat × PTimer := (nt + 1, ⟨s.now + maxExpireMs, TAction.hardCap key nO⟩) with hH
    constructor
    · exact nodup_fst_snoc hs.keysND hfresh
    · rw [List.map_append]
      refine List.Nodup.append hs.timersND ?_ ?_
      · simp [hR, hH]
      · intro x hx hx2
        obtain ⟨p, hp, hpx⟩ := List.mem_map.mp hx
        have := hs.timersLT p hp
        simp only [hR, hH, List.map_cons, List.map_nil, List.mem_cons,
          List.mem_singleton, List.not_mem_nil] at hx2
        rcases hx2 with h1 | h1 | h1
        · omega
        · omega
        · exact h1
    · intro p hp
      show p.1 < nt + 2
      rcases List.mem_append.mp hp with h | h
      · have := hs.timersLT p h
        omega
      · simp only [hR, hH, List.mem_cons, List.mem_singleton, List.not_mem_nil] at h
        rcases h with h1 | h1 | h1
        · rw [h1]
          exact Nat.lt_succ_of_lt (Nat.lt_succ_self nt)
        · rw [h1]
          exact Nat.lt_succ_self (nt + 1)
        · exact absurd h1 (by simp)
    · intro p hp
      rcases List.mem_append.mp hp with h | h
      · exact hs.dueGE p h
      · simp only [hR, hH, List.mem_cons, List.mem_singleton, List.not_mem_nil] at h
        rcases h with h1 | h1 | h1
        · rw [h1]; exact Nat.le_add_right _ _
        · rw [h1]; exact Nat.le_add_right _ _
        · exact absurd h1 (by simp)
    · intro kv hkv
      rcases List.mem_append.mp hkv with h | h
      · obtain ⟨th, hth⟩ := hs.hard kv h
        exact ⟨th, List.mem_append_left _ hth⟩
      · rw [List.mem_singleton.mp h]
        refine ⟨nt + 1, List.mem_append_right _ ?_⟩
        simp [hH]
    · intro kv hkv
      rcases List.mem_append.mp hkv with h | h
      · obtain ⟨t1, d1, htm1, hmem1⟩ := hs.renewPend kv h
        exact ⟨t1, d1, htm1, List.mem_append_left _ hmem1⟩
      · rw [List.mem_singleton.mp h]
        refine ⟨nt, s.now + expireDelayMs, rfl, List.mem_append_right _ ?_⟩
        simp [hR]
    · intro t2 d2 k2 o2 hmem2
      rcases List.mem_append.mp hmem2 with h | h
      · obtain ⟨info2, hl2, htm2, hid2⟩ := hs.renewOwn t2 d2 k2 o2 h
        exact ⟨info2, lookupA_append_of_some hl2, htm2, hid2⟩
      · simp only [hR, hH, List.mem_cons, List.mem_singleton, List.not_mem_nil,
          Prod.mk.injEq, PTimer.mk.injEq] at h
        rcases h with ⟨h1, h2, h3⟩ | ⟨h1, h2, h3⟩ | h1
        · simp only [TAction.removeKeyAt.injEq] at h3
          obtain ⟨hk2, ho2⟩ := h3
          subst h1
          subst hk2
          subst ho2
          refine ⟨info1, ?_, rfl, rfl⟩
          rw [lookupA_append_of_none hlnone]
          simp [lookupA]
        · exact TAction.noConfusion h3
        · exact absurd h1 (by simp)

theorem inv_statusR {s : St} (hs : Inv s) (k a : String) :
    Inv (statusR s k a).1 := by
  unfold statusR
  simp only []
  cases hl : lookupA s.keys (jsToUpper k) with
  | none =>
    exact hs
  | some info =>
    simp only []
    by_cases hag : info.agent ≠ a
    · rw [if_pos hag]
      exact hs
    · rw [if_neg hag]
      exact inv_expireKey hs hl

theorem inv_downloadR {s : St} (hs : Inv s) (kq : Option String)
    (fn a : String) : Inv (downloadR s kq fn a).1 := by
  cases kq with
  | none => exact hs
  | some kraw =>
    unfold downloadR
    simp only []
    by_cases hkq : kraw = ""
    · rw [if_pos hkq]
      exact hs
    · rw [if_neg hkq]
      cases hl : lookupA s.keys (jsToUpper kraw) with
      | none => exact hs
      | some info =>
        simp only []
        cases hf : info.files.find? (fun f => f.name = fn) with
        | none => exact hs
        | some f =>
          simp only []
          by_cases hag : info.agent ≠ a
          · rw [if_pos hag]
            exact hs
          · rw [if_neg hag]
            exact inv_expireKey hs hl

theorem inv_uploadTouch {s : St} (hs : Inv s) (key : String)
    (url : Option String) : Inv (uploadTouch s key url) := by
  unfold uploadTouch
  simp only []
  cases hl : lookupA s.keys key with
  | none =>
    exact hs
  | some info =>
    simp only []
    have hs1 : Inv (expireKey s key) := inv_expireKey hs hl
    cases url with
    | none => exact hs1
    | some u0 =>
      simp only []
      by_cases hu : jsTrim u0 ≠ ""
      · rw [if_pos hu]
        cases hl1 : lookupA (expireKey s key).keys key with
        | none =>
          exact hs1
        | some info' =>
          simp only []
          by_cases hmem : jsTrim u0 ∈ info'.urls
          · rw [if_pos hmem]
            exact hs1
          · rw [if_neg hmem]
            exact inv_update_frame hs1
              { info' with urls := info'.urls ++ [jsTrim u0] } hl1 rfl rfl rfl _
      · rw [if_neg hu]
        exact hs1

theorem inv_uploadPush {s : St} (hs : Inv s) (key : String) (sid : Nat)
    (rec : FileRec) : Inv (uploadPush s key sid rec) := by
  unfold uploadPush
  cases hl : lookupA s.keys key with
  | none =>
    exact hs
  | some info =>
    simp only []
    by_cases hid : info.id = sid
    · rw [if_pos hid]
      exact inv_update_frame hs { info with files := info.files ++ [rec] } hl rfl rfl rfl _
    · rw [if_neg hid]
      exact hs

theorem inv_deleteFileR {s : St} (hs : Inv s) (k fn : String) :
    Inv (deleteFileR s k fn).1 := by
  unfold deleteFileR
  simp only []
  cases hl : lookupA s.keys (jsToUpper k) with
  | none =>
    exact hs
  | some info =>
    simp only []
    cases hf : info.files.find? (fun f => f.name = fn) with
    | none =>
      exact hs
    | some f =>
      exact inv_update_frame hs { info with files := removeFirstFile info.files fn }
        hl rfl rfl rfl _

theorem inv_tick {s : St} (hs : Inv s) (t : Nat) : Inv (step s (Act.tick t)) := by
  show Inv (if s.now ≤ t ∧ (∀ p ∈ s.timers, t ≤ p.2.due) then { s with now := t } else s)
  split
  next hcond =>
    exact ⟨hs.keysND, hs.timersND, hs.timersLT, fun p hp => hcond.2 p hp,
      hs.hard, hs.renewPend, hs.renewOwn⟩
  next => exact hs

theorem inv_step {s : St} (hs : Inv s) (a : Act) : Inv (step s a) := by
  cases a with
  | generate agent stream => exact inv_generate hs agent stream
  | status k a => exact inv_statusR hs k a
  | upload k u => exact inv_uploadTouch hs k u
  | uploadFile k sid rec => exact inv_uploadPush hs k sid rec
  | download kq f a => exact inv_downloadR hs kq f a
  | delFile k f => exact inv_deleteFileR hs k f
  | fire tid => exact inv_fire hs tid
  | tick t => exact inv_tick hs t

theorem inv_reachable {s : St} (h : Reachable s) : Inv s := by
  induction h with
  | init => exact inv_init
  | step h a ih => exact inv_step ih a

/-! ## Key-shape lemmas -/

theorem jsDigits_len_le {r : Nat} (h : r < 30 ^ 4) : (jsDigits r).length ≤ 4 := by
  unfold jsDigits
  by_cases hr : r = 0
  · rw [if_pos hr]
    simp
  · rw [if_neg hr]
    rw [List.length_reverse]
    rw [Nat.digits_len 30 r (by norm_num) hr]
    have hlt : Nat.log 30 r < 4 := Nat.log_lt_of_lt_pow hr h
    omega

theorem jsDigits_lt {r d : Nat} (hd : d ∈ jsDigits r) : d < 30 := by
  unfold jsDigits at hd
  by_cases hr : r = 0
  · rw [if_pos hr] at hd
    simp at hd
    omega
  · rw [if_neg hr] at hd
    rw [List.mem_reverse] at hd
    exact Nat.digits_lt_base (by norm_num) hd

theorem randomKeyStr_spec {r : Nat} (h : r < 30 ^ 4) :
    (randomKeyStr r).length = 4 ∧ ∀ c ∈ (randomKeyStr r).data, c ∈ keyChars.data := by
  have hlen : (padStartZeros (jsDigits r)).length = 4 := by
    unfold padStartZeros keyLength
    rw [List.length_append, List.length_replicate]
    have := jsDigits_len_le h
    omega
  constructor
  · show ((padStartZeros (jsDigits r)).map (fun d => keyChars.data.getD d ' ')).length = 4
    rw [List.length_map]
    exact hlen
  · intro c hc
    have hc' : c ∈ (padStartZeros (jsDigits r)).map (fun d => keyChars.data.getD d ' ') := hc
    obtain ⟨d, hd, hdc⟩ := List.mem_map.mp hc'
    have hd30 : d < 30 := by
      unfold padStartZeros at hd
      rcases List.mem_append.mp hd with h1 | h1
      · have := List.eq_of_mem_replicate h1
        omega
      · exact jsDigits_lt h1
    rw [← hdc]
    have hklen : keyChars.data.length = 30 := by decide
    rw [List.getD_eq_getElem _ _ (by rw [hklen]; exact hd30)]
    exact List.getElem_mem _

/-- Firing a pending, due timer: the callback runs after the handle
leaves the pending table. -/
theorem fireTimer_eq {s : St} {tid : Nat} {tm : PTimer}
    (hlt : lookupA s.timers tid = some tm) (hdue : tm.due ≤ s.now) :
    fireTimer s tid =
      match tm.act with
      | TAction.removeKeyAt key _ =>
        removeKey { s with timers := eraseA s.timers tid } key
      | TAction.hardCap key sid =>
        match lookupA s.keys key with
        | some info =>
          if info.id = sid then removeKey { s with timers := eraseA s.timers tid } key
          else { s with timers := eraseA s.timers tid }
        | none => { s with timers := eraseA s.timers tid } := by
  unfold fireTimer
  simp only [hlt]
  rw [if_pos hdue]

/-! ## Concrete states used by witnesses -/

/-- One session, key `"2222"`, created at time `0` by device `"ua"`. -/
def exSt1 : St := step initSt (Act.generate "ua" (fun _ => 0))

/-- State `exSt1` after one uploaded file record. -/
def exSt2 : St :=
  step exSt1 (Act.uploadFile "2222" 0 ⟨"b.epub", "uploads/files-1.epub", 5, none⟩)

/-- State `exSt1` after the renewable timer has fired at its due instant. -/
def exSt3 : St := step (step exSt1 (Act.tick 600000)) (Act.fire 0)

/-! ## The claims -/

/-- Claim C1: once the hard-cap duration has elapsed since its creation a
session is removed from the registry, no matter how it was touched: in any
reachable state a live session's clock never exceeds `created + maxExpireMs`
(the event loop cannot pass the hard-cap timer's due instant while it is
pending, and that timer is never cancelled while the session lives), and
firing the session's hard-cap timer at its due instant removes the session
from the registry. -/
theorem claim_C1_hard_cap (s : St) (hR : Reachable s) (K : String)
    (info : SessionInfo) (hl : lookupA s.keys K = some info) :
    s.now ≤ info.created + maxExpireMs ∧
    ∀ tid, (tid, (⟨info.created + maxExpireMs, TAction.hardCap K info.id⟩ : PTimer)) ∈ s.timers →
      info.created + maxExpireMs ≤ s.now →
      lookupA (fireTimer s tid).keys K = none := by
  have hInv := inv_reachable hR
  constructor
  · obtain ⟨tid, hmem⟩ := hInv.hard (K, info) (lookupA_mem hl)
    exact hInv.dueGE _ hmem
  · intro tid hmem hdue
    have hlt : lookupA s.timers tid =
        some ⟨info.created + maxExpireMs, TAction.hardCap K info.id⟩ :=
      lookupA_eq_of_mem hInv.timersND hmem
    rw [fireTimer_eq hlt hdue]
    simp only []
    rw [hl]
    simp only []
    rw [if_pos trivial]
    have hl' : lookupA ({ s with timers := eraseA s.timers tid } : St).keys K = some info := hl
    rw [removeKey_live_eq hl']
    exact lookupA_eraseA_self hInv.keysND

/-- Witness for C1 at the concrete state `exSt1`. -/
theorem claim_C1_witness :
    exSt1.now ≤ (⟨0, 0, "ua", [], [], some 0, 0⟩ : SessionInfo).created + maxExpireMs ∧
    ∀ tid, (tid, (⟨(⟨0, 0, "ua", [], [], some 0, 0⟩ : SessionInfo).created + maxExpireMs,
        TAction.hardCap "2222" (⟨0, 0, "ua", [], [], some 0, 0⟩ : SessionInfo).id⟩ : PTimer))
        ∈ exSt1.timers →
      (⟨0, 0, "ua", [], [], some 0, 0⟩ : SessionInfo).created + maxExpireMs ≤ exSt1.now →
      lookupA (fireTimer exSt1 tid).keys "2222" = none :=
  claim_C1_hard_cap exSt1
    (Reachable.step Reachable.init (Act.generate "ua" (fun _ => 0)))
    "2222" ⟨0, 0, "ua", [], [], some 0, 0⟩ (by decide)

/-- Claim C2: a generated key has length 4 over the 30-symbol alphabet;
the retry loop only ever returns a key that is not currently live and is
one of the first `size + 1` candidates, returns the capacity error only
when those candidates were all live, and registry keys are always
pairwise distinct. -/
theorem claim_C2_key_generation :
    (∀ r, r < 30 ^ 4 →
      (randomKeyStr r).length = 4 ∧ ∀ c ∈ (randomKeyStr r).data, c ∈ keyChars.data)
  ∧ (∀ (ks : List String) (size : Nat) (stream : Nat → Nat) (k : String),
      genLoop ks size stream 0 = some k →
      k ∉ ks ∧ ∃ i, i ≤ size ∧ k = randomKeyStr (stream i))
  ∧ (∀ (ks : List String) (size : Nat) (stream : Nat → Nat) (k : String),
      (∀ i, stream i < 30 ^ 4) → genLoop ks size stream 0 = some k →
      k.length = 4 ∧ ∀ c ∈ k.data, c ∈ keyChars.data)
  ∧ (∀ (ks : List String) (size : Nat) (stream : Nat → Nat),
      genLoop ks size stream 0 = none →
      ∀ i, i ≤ size → randomKeyStr (stream i) ∈ ks)
  ∧ (∀ s, Reachable s → (s.keys.map Prod.fst).Nodup) := by
  refine ⟨fun r h => randomKeyStr_spec h,
    fun ks size stream k h => genLoop_some_props h, ?_,
    fun ks size stream h => genLoop_none_props h,
    fun s hR => (inv_reachable hR).keysND⟩
  intro ks size stream k hb h
  obtain ⟨_, i, _, hk⟩ := genLoop_some_props h
  rw [hk]
  exact randomKeyStr_spec (hb i)

/-- Witness for C2 at concrete draws and the concrete state `exSt1`. -/
theorem claim_C2_witness :
    ((randomKeyStr 0).length = 4 ∧ ∀ c ∈ (randomKeyStr 0).data, c ∈ keyChars.data)
  ∧ ("2222" ∉ ([] : List String) ∧ ∃ i, i ≤ 0 ∧ "2222" = randomKeyStr ((fun _ => 0) i))
  ∧ (("2222" : String).length = 4 ∧ ∀ c ∈ ("2222" : String).data, c ∈ keyChars.data)
  ∧ (randomKeyStr ((fun _ => 0) 0) ∈ ["2222"])
  ∧ ((exSt1.keys.map Prod.fst).Nodup) := by
  refine ⟨claim_C2_key_generation.1 0 (by norm_num),
    claim_C2_key_generation.2.1 [] 0 (fun _ => 0) "2222" (by decide),
    claim_C2_key_generation.2.2.1 [] 0 (fun _ => 0) "2222" (fun i => by norm_num) (by decide),
    claim_C2_key_generation.2.2.2.1 ["2222"] 0 (fun _ => 0) (by decide) 0 (Nat.le_refl 0),
    claim_C2_key_generation.2.2.2.2 exSt1
      (Reachable.step Reachable.init (Act.generate "ua" (fun _ => 0)))⟩

/-- Claim C3 (amended): when `expire(key)` (= `removeKey`) runs for a live
session it deletes every FileRecord's backing artifact and removes the
session from the registry; it cancels the session's renewable-expiry timer,
which is the other pending timer only when the hard-cap timer invoked it.
When the renewable timer itself invoked it, the hard-cap timer is NOT
cancelled: it stays pending (its later firing is the guarded no-op of C4). -/
theorem claim_C3_expire (s : St) (hR : Reachable s) (K : String)
    (info : SessionInfo) (hl : lookupA s.keys K = some info) :
    (∀ t0 d0, info.timer = some t0 →
      (t0, (⟨d0, TAction.removeKeyAt K info.id⟩ : PTimer)) ∈ s.timers → d0 ≤ s.now →
      (lookupA (fireTimer s t0).keys K = none
        ∧ (fireTimer s t0).deleted = s.deleted ++ info.files.map (·.path)
        ∧ ∀ th dh sid, (th, (⟨dh, TAction.hardCap K sid⟩ : PTimer)) ∈ s.timers →
            (th, (⟨dh, TAction.hardCap K sid⟩ : PTimer)) ∈ (fireTimer s t0).timers))
  ∧ (∀ th, (th, (⟨info.created + maxExpireMs, TAction.hardCap K info.id⟩ : PTimer)) ∈ s.timers →
      info.created + maxExpireMs ≤ s.now →
      (lookupA (fireTimer s th).keys K = none
        ∧ (fireTimer s th).deleted = s.deleted ++ info.files.map (·.path)
        ∧ ∀ t, info.timer = some t → lookupA (fireTimer s th).timers t = none)) := by
  have hInv := inv_reachable hR
  constructor
  · intro t0 d0 ht0 hmem hdue
    have hlt : lookupA s.timers t0 = some ⟨d0, TAction.removeKeyAt K info.id⟩ :=
      lookupA_eq_of_mem hInv.timersND hmem
    rw [fireTimer_eq hlt hdue]
    simp only []
    have hl' : lookupA ({ s with timers := eraseA s.timers t0 } : St).keys K = some info := hl
    rw [removeKey_live_eq hl']
    refine ⟨lookupA_eraseA_self hInv.keysND, rfl, ?_⟩
    intro th dh sid hth
    show (th, (⟨dh, TAction.hardCap K sid⟩ : PTimer)) ∈
      eraseTOpt (eraseA s.timers t0) info.timer
    rw [ht0]
    simp only [eraseTOpt]
    have hne : th ≠ t0 := by
      intro hc
      subst hc
      have := mem_unique_of_nodup_fst hInv.timersND hth hmem
      simp only [PTimer.mk.injEq] at this
      exact TAction.noConfusion this.2
    exact eraseA_mem_of_ne (eraseA_mem_of_ne hth hne) hne
  · intro th hth hdue
    have hlt : lookupA s.timers th =
        some ⟨info.created + maxExpireMs, TAction.hardCap K info.id⟩ :=
      lookupA_eq_of_mem hInv.timersND hth
    rw [fireTimer_eq hlt hdue]
    simp only []
    rw [hl]
    simp only []
    rw [if_pos trivial]
    have hl' : lookupA ({ s with timers := eraseA s.timers th } : St).keys K = some info := hl
    rw [removeKey_live_eq hl']
    refine ⟨lookupA_eraseA_self hInv.keysND, rfl, ?_⟩
    intro t ht
    show lookupA (eraseTOpt (eraseA s.timers th) info.timer) t = none
    rw [ht]
    simp only [eraseTOpt]
    exact lookupA_eraseA_self (nodup_fst_eraseA hInv.timersND)

/-- Counterexample to C3 as stated: in `exSt3` the renewable timer of the
only session has fired at its due instant, the session is gone, yet the
session's hard-cap timer — the "other pending timer" expire was claimed to
cancel — is still pending. -/
theorem claim_C3_counterexample :
    lookupA exSt3.keys "2222" = none ∧
    (1, (⟨3600000, TAction.hardCap "2222" 0⟩ : PTimer)) ∈ exSt3.timers := by
  decide

/-- Witness for the amended C3 at the concrete state reached by creating a
session and letting the clock reach the renewable due instant. -/
theorem claim_C3_witness :
    (∀ t0 d0, (⟨0, 0, "ua", [], [], some 0, 0⟩ : SessionInfo).timer = some t0 →
      (t0, (⟨d0, TAction.removeKeyAt "2222"
          (⟨0, 0, "ua", [], [], some 0, 0⟩ : SessionInfo).id⟩ : PTimer)) ∈
          (step exSt1 (Act.tick 600000)).timers →
      d0 ≤ (step exSt1 (Act.tick 600000)).now →
      (lookupA (fireTimer (step exSt1 (Act.tick 600000)) t0).keys "2222" = none
        ∧ (fireTimer (step exSt1 (Act.tick 600000)) t0).deleted =
            (step exSt1 (Act.tick 600000)).deleted ++
              (⟨0, 0, "ua", [], [], some 0, 0⟩ : SessionInfo).files.map (·.path)
        ∧ ∀ th dh sid, (th, (⟨dh, TAction.hardCap "2222" sid⟩ : PTimer)) ∈
              (step exSt1 (Act.tick 600000)).timers →
            (th, (⟨dh, TAction.hardCap "2222" sid⟩ : PTimer)) ∈
              (fireTimer (step exSt1 (Act.tick 600000)) t0).timers))
  ∧ (∀ th, (th, (⟨(⟨0, 0, "ua", [], [], some 0, 0⟩ : SessionInfo).created + maxExpireMs,
        TAction.hardCap "2222" (⟨0, 0, "ua", [], [], some 0, 0⟩ : SessionInfo).id⟩ : PTimer)) ∈
        (step exSt1 (Act.tick 600000)).timers →
      (⟨0, 0, "ua", [], [], some 0, 0⟩ : SessionInfo).created + maxExpireMs ≤
        (step exSt1 (Act.tick 600000)).now →
      (lookupA (fireTimer (step exSt1 (Act.tick 600000)) th).keys "2222" = none
        ∧ (fireTimer (step exSt1 (Act.tick 600000)) th).deleted =
            (step exSt1 (Act.tick 600000)).deleted ++
              (⟨0, 0, "ua", [], [], some 0, 0⟩ : SessionInfo).files.map (·.path)
        ∧ ∀ t, (⟨0, 0, "ua", [], [], some 0, 0⟩ : SessionInfo).timer = some t →
            lookupA (fireTimer (step exSt1 (Act.tick 600000)) th).timers t = none)) :=
  claim_C3_expire (step exSt1 (Act.tick 600000))
    (Reachable.step (Reachable.step Reachable.init (Act.generate "ua" (fun _ => 0)))
      (Act.tick 600000))
    "2222" ⟨0, 0, "ua", [], [], some 0, 0⟩ (by decide)

/-- Claim C4: an expiry-timer callback scheduled on behalf of a session
that has since been removed, while its key has been re-issued to a
different session (different object identity), is a guarded no-op when it
fires: the registry, the artifact-deletion log, and all other timers are
untouched — only the fired handle leaves the pending table. -/
theorem claim_C4_stale_timer (s : St) (hR : Reachable s) (tid : Nat) (tm : PTimer)
    (hmem : (tid, tm) ∈ s.timers) (K : String) (sid : Nat)
    (howner : tm.act = TAction.removeKeyAt K sid ∨ tm.act = TAction.hardCap K sid)
    (info' : SessionInfo) (hl : lookupA s.keys K = some info')
    (hne : info'.id ≠ sid) (hdue : tm.due ≤ s.now) :
    (fireTimer s tid).keys = s.keys ∧ (fireTimer s tid).deleted = s.deleted ∧
    (fireTimer s tid).timers = eraseA s.timers tid := by
  have hInv := inv_reachable hR
  rcases howner with hact | hact
  · exfalso
    have hmem' : (tid, (⟨tm.due, TAction.removeKeyAt K sid⟩ : PTimer)) ∈ s.timers := by
      rw [← hact]
      exact hmem
    obtain ⟨info2, hl2, _, hid2⟩ := hInv.renewOwn tid tm.due K sid hmem'
    rw [hl] at hl2
    obtain rfl : info2 = info' := by
      exact (Option.some.injEq .. ▸ hl2).symm ▸ rfl
    exact hne hid2
  · have hlt : lookupA s.timers tid = some tm := lookupA_eq_of_mem hInv.timersND hmem
    rw [fireTimer_eq hlt hdue]
    rw [hact]
    simp only []
    rw [hl]
    simp only []
    rw [if_neg hne]
    exact ⟨rfl, rfl, rfl⟩

/-- The C4 witness trace: remove the first `"2222"` session via its
renewable timer, re-issue `"2222"` to a new session, touch it every ten
minutes, and reach the old session's hard-cap due instant. -/
def exC4a : St := step exSt3 (Act.generate "ua" (fun _ => 0))

def exC4b : St := step (step exC4a (Act.tick 1200000)) (Act.status "2222" "ua")

def exC4c : St := step (step exC4b (Act.tick 1800000)) (Act.status "2222" "ua")

def exC4d : St := step (step exC4c (Act.tick 2400000)) (Act.status "2222" "ua")

def exC4e : St := step (step exC4d (Act.tick 3000000)) (Act.status "2222" "ua")

def exC4f : St := step exC4e (Act.tick 3600000)

theorem rexC4f : Reachable exC4f :=
  Reachable.step (Reachable.step (Reachable.step (Reachable.step (Reachable.step
    (Reachable.step (Reachable.step (Reachable.step (Reachable.step (Reachable.step
      (Reachable.step (Reachable.step (Reachable.step Reachable.init
        (Act.generate "ua" (fun _ => 0)))
        (Act.tick 600000)) (Act.fire 0))
        (Act.generate "ua" (fun _ => 0)))
        (Act.tick 1200000)) (Act.status "2222" "ua"))
        (Act.tick 1800000)) (Act.status "2222" "ua"))
        (Act.tick 2400000)) (Act.status "2222" "ua"))
        (Act.tick 3000000)) (Act.status "2222" "ua"))
        (Act.tick 3600000)

/-- Witness for C4: the stale hard-cap timer of the first `"2222"` session
fires at its due instant while a second `"2222"` session is live. -/
theorem claim_C4_witness :
    (fireTimer exC4f 1).keys = exC4f.keys ∧
    (fireTimer exC4f 1).deleted = exC4f.deleted ∧
    (fireTimer exC4f 1).timers = eraseA exC4f.timers 1 :=
  claim_C4_stale_timer exC4f rexC4f 1 ⟨3600000, TAction.hardCap "2222" 0⟩
    (by decide) "2222" 0 (Or.inr rfl)
    ⟨1, 600000, "ua", [], [], some 7, 3000000⟩ (by decide) (by decide) (by decide)

/-- Claim C9 (amended): `touch` (= `expireKey`) on a live key cancels the
pending renewable-expiry timer, schedules a fresh one, updates the
last-activity timestamp, and changes no other session field and no other
timer; on a key not in the registry it leaves the registry unchanged but —
contrary to the claim as stated — still schedules a fresh expiry timer that
is recorded in no session. -/
theorem claim_C9_touch (s : St) (hInv : Inv s) :
    (∀ key info, lookupA s.keys key = some info →
      ((expireKey s key).keys =
          updateA s.keys key { info with timer := some s.nextTimer, alive := s.now }
        ∧ (s.nextTimer,
            (⟨s.now + expireDelayMs, TAction.removeKeyAt key info.id⟩ : PTimer)) ∈
            (expireKey s key).timers
        ∧ (∀ t, info.timer = some t → lookupA (expireKey s key).timers t = none)
        ∧ (∀ p ∈ s.timers, info.timer ≠ some p.1 → p ∈ (expireKey s key).timers)
        ∧ (expireKey s key).now = s.now
        ∧ (expireKey s key).deleted = s.deleted))
  ∧ (∀ key, lookupA s.keys key = none →
      (expireKey s key).keys = s.keys ∧
      (expireKey s key).timers =
        s.timers ++ [(s.nextTimer, ⟨s.now + expireDelayMs, TAction.removeKeyAt key 0⟩)]) := by
  constructor
  · intro key info hl
    obtain ⟨t0, d0, ht0, hmem0⟩ := hInv.renewPend (key, info) (lookupA_mem hl)
    have ht0' : info.timer = some t0 := ht0
    have hmem0' : (t0, (⟨d0, TAction.removeKeyAt key info.id⟩ : PTimer)) ∈ s.timers := hmem0
    have ht0lt : t0 < s.nextTimer := hInv.timersLT _ hmem0'
    obtain ⟨tm0, htm0⟩ := Option.isSome_iff_exists.mp (lookupA_isSome_of_mem hmem0')
    rw [expireKey_live_eq hl]
    simp only [eraseTOpt, ht0']
    rw [eraseA_append_of_some htm0]
    refine ⟨trivial, List.mem_append_right _ (List.mem_singleton.mpr rfl), ?_, ?_,
      trivial, trivial⟩
    · intro t ht
      have htt : t0 = t := by injection ht
      subst htt
      rw [lookupA_append_of_none (lookupA_eraseA_self hInv.timersND)]
      simp only [lookupA]
      rw [if_neg (by omega : ¬ s.nextTimer = t0)]
    · intro p hp hne
      have hpt0 : p.1 ≠ t0 := by
        intro hc
        exact hne (by rw [hc])
      exact List.mem_append_left _ (eraseA_mem_of_ne hp hpt0)
  · intro key hl
    rw [expireKey_none_eq hl]
    exact ⟨rfl, rfl⟩

/-- Counterexample to C9 as stated: `expireKey` on the key `"AAAA"`,
absent from the empty registry, leaves the registry unchanged but grows
the pending-timer table, so it is not a no-op on the timers. -/
theorem claim_C9_counterexample :
    (expireKey initSt "AAAA").keys = initSt.keys ∧
    (expireKey initSt "AAAA").timers ≠ initSt.timers := by
  decide

/-- Witness for the amended C9 at the concrete state `exSt1`. -/
theorem claim_C9_witness :
    ((expireKey exSt1 "2222").keys =
        updateA exSt1.keys "2222"
          { (⟨0, 0, "ua", [], [], some 0, 0⟩ : SessionInfo) with
              timer := some exSt1.nextTimer, alive := exSt1.now }
      ∧ (exSt1.nextTimer,
          (⟨exSt1.now + expireDelayMs,
            TAction.removeKeyAt "2222"
              (⟨0, 0, "ua", [], [], some 0, 0⟩ : SessionInfo).id⟩ : PTimer)) ∈
          (expireKey exSt1 "2222").timers
      ∧ (∀ t, (⟨0, 0, "ua", [], [], some 0, 0⟩ : SessionInfo).timer = some t →
          lookupA (expireKey exSt1 "2222").timers t = none)
      ∧ (∀ p ∈ exSt1.timers,
          (⟨0, 0, "ua", [], [], some 0, 0⟩ : SessionInfo).timer ≠ some p.1 →
          p ∈ (expireKey exSt1 "2222").timers)
      ∧ (expireKey exSt1 "2222").now = exSt1.now
      ∧ (expireKey exSt1 "2222").deleted = exSt1.deleted)
  ∧ ((expireKey exSt1 "AAAA").keys = exSt1.keys ∧
      (expireKey exSt1 "AAAA").timers =
        exSt1.timers ++
          [(exSt1.nextTimer, ⟨exSt1.now + expireDelayMs, TAction.removeKeyAt "AAAA" 0⟩)]) := by
  have h := claim_C9_touch exSt1
    (inv_reachable (Reachable.step Reachable.init (Act.generate "ua" (fun _ => 0))))
  exact ⟨h.1 "2222" ⟨0, 0, "ua", [], [], some 0, 0⟩ (by decide), h.2 "AAAA" (by decide)⟩

/-- Claim C5: for every upload request the session key is resolved from the
dedicated header, then the query parameter, then the request-body field,
each trimmed and uppercased when present; when no key is resolved, or the
resolved key is not a live session, the entire batch is rejected with a
single validation failure and every already-staged temporary file of the
request is deleted — no partial acceptance. -/
theorem claim_C5_upload_key (r : UpReq) (reg : List (String × SessionInfo)) :
    (∀ h, r.headerKey = some h → jsTrim h ≠ "" →
      getKeyFromRequest r = some (jsToUpper (jsTrim h)))
  ∧ (∀ q, (r.headerKey = none ∨ ∃ h, r.headerKey = some h ∧ jsTrim h = "") →
      r.queryKey = some q → jsTrim q ≠ "" →
      getKeyFromRequest r = some (jsToUpper (jsTrim q)))
  ∧ (∀ b, (r.headerKey = none ∨ ∃ h, r.headerKey = some h ∧ jsTrim h = "") →
      (r.queryKey = none ∨ ∃ q, r.queryKey = some q ∧ jsTrim q = "") →
      r.bodyKey = some b → b ≠ "" → jsTrim b ≠ "" →
      getKeyFromRequest r = some (jsToUpper (jsTrim b)))
  ∧ ((r.headerKey = none ∨ ∃ h, r.headerKey = some h ∧ jsTrim h = "") →
      (r.queryKey = none ∨ ∃ q, r.queryKey = some q ∧ jsTrim q = "") →
      (r.bodyKey = none ∨ ∃ b, r.bodyKey = some b ∧ (b = "" ∨ jsTrim b = "")) →
      getKeyFromRequest r = none)
  ∧ (getKeyFromRequest r = none →
      uploadPre reg r =
        UploadPre.rejected "Missing key (send x-upload-key header)."
          (r.files.map (·.path)))
  ∧ (∀ k, getKeyFromRequest r = some k → lookupA reg k = none →
      uploadPre reg r =
        UploadPre.rejected ("Unknown key " ++ k) (r.files.map (·.path))) := by
  refine ⟨?_, ?_, ?_, ?_, ?_, ?_⟩
  · intro h hh hnz
    unfold getKeyFromRequest
    simp only [hh, if_neg hnz]
  · intro q hhdr hq hnz
    unfold getKeyFromRequest
    rcases hhdr with h0 | ⟨h, hh, hblank⟩
    · simp only [h0, hq, if_neg hnz]
    · simp only [hh, if_pos hblank, hq, if_neg hnz]
  · intro b hhdr hqry hb hbne hnz
    unfold getKeyFromRequest
    have hcond : b ≠ "" ∧ jsTrim b ≠ "" := ⟨hbne, hnz⟩
    rcases hhdr with h0 | ⟨h, hh, hblank⟩ <;>
      rcases hqry with q0 | ⟨q, hq, hqblank⟩
    · simp only [h0, q0, hb, if_pos hcond]
    · simp only [h0, hq, if_pos hqblank, hb, if_pos hcond]
    · simp only [hh, if_pos hblank, q0, hb, if_pos hcond]
    · simp only [hh, if_pos hblank, hq, if_pos hqblank, hb, if_pos hcond]
  · intro hhdr hqry hbody
    unfold getKeyFromRequest
    have hbodyN : ∀ goal : Option String,
        (match r.bodyKey with
          | some b => if b ≠ "" ∧ jsTrim b ≠ "" then some (jsToUpper (jsTrim b)) else none
          | none => none) = none := by
      intro _
      rcases hbody with b0 | ⟨b, hb, hor⟩
      · simp only [b0]
      · have : ¬(b ≠ "" ∧ jsTrim b ≠ "") := by
          rcases hor with h1 | h1
          · exact fun hc => hc.1 h1
          · exact fun hc => hc.2 h1
        simp only [hb, if_neg this]
    rcases hhdr with h0 | ⟨h, hh, hblank⟩ <;>
      rcases hqry with q0 | ⟨q, hq, hqblank⟩
    · simp only [h0, q0]
      exact hbodyN none
    · simp only [h0, hq, if_pos hqblank]
      exact hbodyN none
    · simp only [hh, if_pos hblank, q0]
      exact hbodyN none
    · simp only [hh, if_pos hblank, hq, if_pos hqblank]
      exact hbodyN none
  · intro h0
    unfold uploadPre
    rw [h0]
  · intro k hk hreg
    unfold uploadPre
    rw [hk]
    simp only [hreg]

/-- Witness for C5 at concrete requests covering each resolution rank and
both rejection paths. -/
theorem claim_C5_witness :
    getKeyFromRequest ⟨some " ab12 ", some "zz", some "yy", []⟩ =
      some (jsToUpper (jsTrim " ab12 "))
  ∧ getKeyFromRequest ⟨some "  ", some " cd34 ", some "yy", []⟩ =
      some (jsToUpper (jsTrim " cd34 "))
  ∧ getKeyFromRequest ⟨none, some " ", some " ef56 ", []⟩ =
      some (jsToUpper (jsTrim " ef56 "))
  ∧ getKeyFromRequest ⟨none, none, some "  ", []⟩ = none
  ∧ uploadPre []
      ⟨none, none, some "  ", [⟨"uploads/f1", "a.epub", 3, "application/epub+zip"⟩]⟩ =
      UploadPre.rejected "Missing key (send x-upload-key header)."
        ((⟨none, none, some "  ",
            [⟨"uploads/f1", "a.epub", 3, "application/epub+zip"⟩]⟩ : UpReq).files.map (·.path))
  ∧ uploadPre []
      ⟨some "AB12", none, none, [⟨"uploads/f1", "a.epub", 3, "application/epub+zip"⟩]⟩ =
      UploadPre.rejected ("Unknown key " ++ "AB12")
        ((⟨some "AB12", none, none,
            [⟨"uploads/f1", "a.epub", 3, "application/epub+zip"⟩]⟩ : UpReq).files.map (·.path)) := by
  refine ⟨(claim_C5_upload_key ⟨some " ab12 ", some "zz", some "yy", []⟩ []).1
      " ab12 " rfl (by decide),
    (claim_C5_upload_key ⟨some "  ", some " cd34 ", some "yy", []⟩ []).2.1
      " cd34 " (Or.inr ⟨"  ", rfl, by decide⟩) rfl (by decide),
    (claim_C5_upload_key ⟨none, some " ", some " ef56 ", []⟩ []).2.2.1
      " ef56 " (Or.inl rfl) (Or.inr ⟨" ", rfl, by decide⟩) rfl (by decide) (by decide),
    (claim_C5_upload_key ⟨none, none, some "  ", []⟩ []).2.2.2.1
      (Or.inl rfl) (Or.inl rfl) (Or.inr ⟨"  ", rfl, Or.inr (by decide)⟩),
    (claim_C5_upload_key _ []).2.2.2.2.1 (by decide),
    (claim_C5_upload_key _ []).2.2.2.2.2 "AB12" (by decide) rfl⟩

/-- Claim C6: an uploaded item passes both type gates only if its declared
content type — after octet-stream sniffing and legacy-EPUB normalization —
or its sniffed content type is in the content-type allow-list, and its
extension (compared case-insensitively) is in the extension allow-list;
when the `processFile` gate rejects, the error names the file and the
detected type and the staged artifact is deleted. -/
theorem claim_C6_upload_validation (f : Staged) (sniffed : Option String) :
    (fileFilterTypeCheck f = Except.ok () → processFileTypeCheck f sniffed = Except.ok () →
      ((effectiveMime f.mimetype sniffed ∈ allowedTypes
          ∨ ∃ t, sniffed = some t ∧ t ∈ allowedTypes)
        ∧ jsExt f.originalname ∈ allowedExtensions))
  ∧ (∀ e, processFileTypeCheck f sniffed = Except.error e →
      (e.fname = f.originalname ∧ e.detected = detectedStr sniffed
        ∧ typeErrMsg e =
            "Uploaded file is of an invalid type: " ++ f.originalname ++
              " (" ++ detectedStr sniffed ++ ")"
        ∧ processUploadedFile f sniffed = (Except.error e, [f.path]))) := by
  constructor
  · intro hff hpf
    have hext : jsExt f.originalname ∈ allowedExtensions := by
      by_cases hC : (f.mimetype ∉ allowedTypes ∧ f.mimetype ≠ "application/octet-stream")
          ∨ jsExt f.originalname ∉ allowedExtensions
      · unfold fileFilterTypeCheck at hff
        rw [if_pos hC] at hff
        exact Except.noConfusion hff
      · push_neg at hC
        exact hC.2
    refine ⟨?_, hext⟩
    by_cases hP : processTypeOk f.mimetype sniffed = true
    · unfold processTypeOk at hP
      rw [decide_eq_true_eq] at hP
      by_cases hm : effectiveMime f.mimetype sniffed ∈ allowedTypes
      · exact Or.inl hm
      · cases hsn : sniffed with
        | none =>
          rw [hsn] at hP hm
          exact absurd ⟨Or.inl rfl, hm⟩ hP
        | some t =>
          by_cases ht : t ∈ allowedTypes
          · exact Or.inr ⟨t, rfl, ht⟩
          · exfalso
            rw [hsn] at hP hm
            apply hP
            refine ⟨Or.inr ?_, hm⟩
            intro t' ht'
            have htt : t = t' := by injection ht'
            rw [← htt]
            exact ht
    · unfold processFileTypeCheck at hpf
      rw [if_neg hP] at hpf
      exact Except.noConfusion hpf
  · intro e hpf
    unfold processFileTypeCheck at hpf
    by_cases hP : processTypeOk f.mimetype sniffed = true
    · rw [if_pos hP] at hpf
      exact Except.noConfusion hpf
    · rw [if_neg hP] at hpf
      have he : e = ⟨f.originalname, detectedStr sniffed⟩ := by
        injection hpf with h1
        exact h1.symm
      subst he
      refine ⟨rfl, rfl, rfl, ?_⟩
      unfold processUploadedFile processFileTypeCheck
      rw [if_neg hP]

/-- Witness for C6: an accepted EPUB and a rejected PNG-named item with
unknown sniffed type. -/
theorem claim_C6_witness :
    ((effectiveMime "application/epub+zip" none ∈ allowedTypes
        ∨ ∃ t, (none : Option String) = some t ∧ t ∈ allowedTypes)
      ∧ jsExt "book.epub" ∈ allowedExtensions)
  ∧ ((⟨"virus.png", "unknown mimetype"⟩ : TypeErr).fname = "virus.png"
      ∧ (⟨"virus.png", "unknown mimetype"⟩ : TypeErr).detected = detectedStr none
      ∧ typeErrMsg ⟨"virus.png", "unknown mimetype"⟩ =
          "Uploaded file is of an invalid type: " ++ "virus.png" ++
            " (" ++ detectedStr none ++ ")"
      ∧ processUploadedFile ⟨"uploads/f2", "virus.png", 9, "image/png"⟩ none =
          (Except.error ⟨"virus.png", "unknown mimetype"⟩, ["uploads/f2"])) := by
  exact ⟨(claim_C6_upload_validation
      ⟨"uploads/f1", "book.epub", 7, "application/epub+zip"⟩ none).1 rfl rfl,
    (claim_C6_upload_validation ⟨"uploads/f2", "virus.png", 9, "image/png"⟩ none).2
      ⟨"virus.png", "unknown mimetype"⟩ rfl⟩

/-- Claim C7: kindlegen succeeds exactly on exit codes 0 and 1 and fails on
any other code or on a launch failure, always deleting the original input
and the `.mobi8` intermediate; kepubify succeeds exactly on exit code 0 and
fails otherwise, always deleting the original input. -/
theorem claim_C7_converters (path collected msg : String) (c : Int) :
    (exOk (kindlegenRun path collected (SpawnOutcome.exited c)).1 = true ↔ (c = 0 ∨ c = 1))
  ∧ exOk (kindlegenRun path collected (SpawnOutcome.launchError msg)).1 = false
  ∧ (∀ o, (kindlegenRun path collected o).2 = [path, replaceEpubSuffix path ".mobi8"])
  ∧ (exOk (kepubifyRun path collected (SpawnOutcome.exited c)).1 = true ↔ c = 0)
  ∧ exOk (kepubifyRun path collected (SpawnOutcome.launchError msg)).1 = false
  ∧ (∀ o, (kepubifyRun path collected o).2 = [path]) := by
  refine ⟨?_, rfl, ?_, ?_, rfl, ?_⟩
  · show exOk (if c ≠ 0 ∧ c ≠ 1 then _ else _) = true ↔ (c = 0 ∨ c = 1)
    by_cases h : c ≠ 0 ∧ c ≠ 1
    · rw [if_pos h]
      simp only [exOk]
      constructor
      · intro hfalse
        exact Bool.noConfusion hfalse
      · intro hor
        exfalso
        rcases hor with h0 | h1
        · exact h.1 h0
        · exact h.2 h1
    · rw [if_neg h]
      simp only [exOk]
      constructor
      · intro _
        push_neg at h
        by_cases h0 : c = 0
        · exact Or.inl h0
        · exact Or.inr (h h0)
      · intro _
        trivial
  · intro o
    cases o <;> rfl
  · show exOk (if c ≠ 0 then _ else _) = true ↔ c = 0
    by_cases h : c ≠ 0
    · rw [if_pos h]
      simp only [exOk]
      exact ⟨fun hf => Bool.noConfusion hf, fun h0 => absurd h0 h⟩
    · rw [if_neg h]
      push_neg at h
      simp only [exOk]
      exact ⟨fun _ => h, fun _ => trivial⟩
  · intro o
    cases o <;> rfl

/-- Claim C8: a status poll or an artifact download that resolves a live
key but presents a device-identity string different from the one recorded
at creation is answered with forbidden and leaves the state — in particular
the renewable-expiry timer and the last-activity timestamp — unchanged. -/
theorem claim_C8_identity (s : St) (keyRaw agent : String) (info : SessionInfo)
    (hl : lookupA s.keys (jsToUpper keyRaw) = some info)
    (hne : info.agent ≠ agent) :
    statusR s keyRaw agent = (s, Resp.forbidden)
  ∧ (∀ filename file, keyRaw ≠ "" →
      info.files.find? (fun f => f.name = filename) = some file →
      downloadR s (some keyRaw) filename agent = (s, Resp.forbidden)) := by
  constructor
  · unfold statusR
    simp only [hl]
    rw [if_pos hne]
  · intro fn file hkq hfind
    unfold downloadR
    simp only []
    rw [if_neg hkq]
    simp only [hl, hfind]
    rw [if_pos hne]

/-- Witness for C8: a second device-identity string is refused on both the
status and the download paths of the concrete state `exSt2`. -/
theorem claim_C8_witness :
    statusR exSt2 "2222" "evil" = (exSt2, Resp.forbidden)
  ∧ (∀ filename file, "2222" ≠ "" →
      (⟨0, 0, "ua", [⟨"b.epub", "uploads/files-1.epub", 5, none⟩], [], some 0, 0⟩ :
          SessionInfo).files.find? (fun f => f.name = filename) = some file →
      downloadR exSt2 (some "2222") filename "evil" = (exSt2, Resp.forbidden)) :=
  claim_C8_identity exSt2 "2222" "evil"
    ⟨0, 0, "ua", [⟨"b.epub", "uploads/files-1.epub", 5, none⟩], [], some 0, 0⟩
    (by decide) (by decide)

/-- Claim C10: when the session's device-identity string contains "Kindle",
the display filename is rewritten by replacing every character other than
word characters, dot, hyphen, double quote, single quote, and parentheses
with an underscore; other device classes keep the filename unchanged by
this step. -/
theorem claim_C10_kindle_filename (agent name : String) :
    (jsIncludes agent "Kindle" = true →
      kindleStep agent name =
        ⟨name.data.map (fun c =>
          if (c.isAlphanum || c = '_') || c ∈ ['.', '-', '"', '\'', '(', ')'] then c
          else '_')⟩)
  ∧ (jsIncludes agent "Kindle" = false → kindleStep agent name = name) := by
  constructor
  · intro h
    unfold kindleStep
    rw [if_pos h]
    rfl
  · intro h
    unfold kindleStep
    rw [if_neg (by simp [h] : ¬ jsIncludes agent "Kindle" = true)]

/-- Witness for C10 on a Kindle and a Kobo identity string. -/
theorem claim_C10_witness :
    kindleStep "Mozilla (Kindle)" "a b.epub" =
      ⟨("a b.epub" : String).data.map (fun c =>
        if (c.isAlphanum || c = '_') || c ∈ ['.', '-', '"', '\'', '(', ')'] then c
        else '_')⟩
  ∧ kindleStep "Mozilla (Kobo)" "a b.epub" = "a b.epub" :=
  ⟨(claim_C10_kindle_filename "Mozilla (Kindle)" "a b.epub").1 (by decide),
    (claim_C10_kindle_filename "Mozilla (Kobo)" "a b.epub").2 (by decide)⟩

end Send2Ereader
